import Mathlib

/-!
SimpleVector: a shallow embedding of `simple_vector.h` and `array_ptr.h`.

The block owned by an `ArrayPtr<Type>` is a list of slots (the empty list is the
null pointer, which is what `ArrayPtr(0)` holds).  Every access `ptr[i]` is
checked against the number of slots of the block: an access outside the block
is undefined behaviour in C++ and is `none` here.  Iterators are indices
relative to `vec_.Get()`.

`size_t` values are natural numbers.  Sums and products of sizes are exact: a
block of `n` objects exists only for `n` far below `2 ^ 63`, so `2 * capacity_`
cannot wrap for a capacity that counts the slots of a real block.  `size_ - 1`
at `size_ = 0` does wrap and is modelled.  `int` is the 32 bit signed integer
and the casts `static_cast<int>(...)` of the source are modelled with their
wrap-around.

A parameter `const Type&` of `Insert` may name a slot of the vector itself and
is a `ConstRef`, read at the point where the code reads it.

`std::move` of an element is a copy here: every slot the code moves from is
overwritten before it is read again, or lies in a block that is released.  The
ownership of blocks is modelled apart, on `ArrayPtr` with `raw_ptr_` as the
address of the owned block.
-/

namespace SimpleVector

/-! ## Element type and raw memory -/

/-- What the code needs of the element type `Type`: the value of `Type()` and
the contents of the slots of a block that `new Type[n]` has just returned
(default-constructed objects for a class type, indeterminate values for a
scalar type). -/
structure Elem (T : Type) where
  dflt : T
  fresh : Nat → T

/-- Constructor `ArrayPtr(size_t size)`: no block for `size = 0`, otherwise the
block `new Type[size]`. -/
def ArrayPtr.create {T : Type} (E : Elem T) (size : Nat) : List T :=
  (List.range size).map E.fresh

/-- Read through `ArrayPtr::operator[]`, `*(raw_ptr_ + index)`. -/
def rd {T : Type} (b : List T) (index : Nat) : Option T :=
  b[index]?

/-- Write through `ArrayPtr::operator[]`, `*(raw_ptr_ + index) = x`. -/
def wr {T : Type} (b : List T) (index : Nat) (x : T) : Option (List T) :=
  if index < b.length then some (b.set index x) else none

/-! ## The standard algorithms the code calls -/

/-- Loop of `std::fill`: `n` slots from `i` on receive `v`. -/
def fillLoop {T : Type} (v : T) : Nat → Nat → List T → Option (List T)
  | _, 0, b => some b
  | i, n + 1, b => (wr b i v).bind (fillLoop v (i + 1) n)

/-- Algorithm `std::fill(b + first, b + last, v)`; a range with `last` before
`first` is not a valid range. -/
def std_fill {T : Type} (b : List T) (first last : Nat) (v : T) : Option (List T) :=
  if last < first then none else fillLoop v first (last - first) b

/-- Loop of `std::copy`: `n` elements of `src` from `i` on go to `dst` from
`d` on, in increasing order. -/
def copyLoop {T : Type} (src : List T) : Nat → Nat → Nat → List T → Option (List T)
  | _, _, 0, dst => some dst
  | i, d, n + 1, dst =>
    (rd src i).bind fun x => (wr dst d x).bind (copyLoop src (i + 1) (d + 1) n)

/-- Algorithm `std::copy(src + first, src + last, dst + d)` between two
different blocks. -/
def std_copy {T : Type} (src : List T) (first last : Nat) (dst : List T) (d : Nat) :
    Option (List T) :=
  if last < first then none else copyLoop src first d (last - first) dst

/-- Loop of `std::copy_backward` inside one block: `*(--d_last) = *(--last)`,
`n` times. -/
def copyBackwardLoop {T : Type} : Nat → Nat → Nat → List T → Option (List T)
  | _, _, 0, b => some b
  | last, d_last, n + 1, b =>
    (rd b (last - 1)).bind fun x =>
      (wr b (d_last - 1) x).bind (copyBackwardLoop (last - 1) (d_last - 1) n)

/-- Algorithm `std::copy_backward(b + first, b + last, b + d_last)` with source
and destination in the same block. -/
def std_copy_backward {T : Type} (b : List T) (first last d_last : Nat) : Option (List T) :=
  if last < first then none else copyBackwardLoop last d_last (last - first) b

/-! ## The vector -/

end SimpleVector

/-- Class `SimpleVector<Type>`: the owned block and the two counters. -/
structure SimpleVector (T : Type) where
  vec_ : List T
  size_ : Nat
  capacity_ : Nat
  deriving DecidableEq, Repr

namespace SimpleVector

variable {T : Type}

/-- Method `GetSize`. -/
def GetSize (a : SimpleVector T) : Nat := a.size_

/-- Method `GetCapacity`. -/
def GetCapacity (a : SimpleVector T) : Nat := a.capacity_

/-- Method `IsEmpty`. -/
def IsEmpty (a : SimpleVector T) : Bool := a.GetSize == 0

/-- The live elements `[begin(), end())`, as far as the block holds them. -/
def live (a : SimpleVector T) : List T := a.vec_.take a.size_

/-- Default constructor. -/
def empty : SimpleVector T := ⟨[], 0, 0⟩

/-- The capacity that `PushBack` and `Insert` grow to. -/
def grown (capacity : Nat) : Nat := if capacity ≠ 0 then 2 * capacity else 1

/-- Method `PushBack(const Type& item)`.  Both branches read `item` before they
write any slot it could name, so the parameter is the value it names. -/
def PushBack (E : Elem T) (a : SimpleVector T) (item : T) : Option (SimpleVector T) :=
  if a.size_ < a.capacity_ then
    (wr a.vec_ a.size_ item).bind fun v =>
      some ⟨v, a.size_ + 1, a.capacity_⟩
  else
    (std_copy a.vec_ 0 a.size_ (ArrayPtr.create E (grown a.capacity_)) 0).bind fun t1 =>
    (std_fill t1 a.size_ a.capacity_ E.dflt).bind fun t2 =>
    (wr t2 a.size_ item).bind fun t3 =>
      some ⟨t3, a.size_ + 1, grown a.capacity_⟩

/-- A parameter of type `const Type&`: the object it names lies outside the
block of the vector, or it is the slot `vec_[k]` of the vector itself. -/
inductive ConstRef (T : Type) where
  | outside : T → ConstRef T
  | slot : Nat → ConstRef T
  deriving DecidableEq, Repr

/-- Reading through a `const Type&` at a moment when the block it may point
into is `b`. -/
def ConstRef.read (r : ConstRef T) (b : List T) : Option T :=
  match r with
  | ConstRef.outside v => some v
  | ConstRef.slot k => rd b k

/-- Method `Insert(ConstIterator pos, const Type& value)`; the result is the
vector and the returned iterator, as an index into the final block.  In place,
`value` is read by `*it = value` after `std::copy_backward` has shifted the
block it may point into; in the growing branch it is read by
`temp[number] = value` while the old block is still as it was. -/
def Insert (E : Elem T) (a : SimpleVector T) (pos : Nat) (value : ConstRef T) :
    Option (SimpleVector T × Nat) :=
  if a.size_ < a.capacity_ then
    (std_copy_backward a.vec_ pos a.size_ (a.size_ + 1)).bind fun v1 =>
    (value.read v1).bind fun x =>
    (wr v1 pos x).bind fun v2 =>
      some (⟨v2, a.size_ + 1, a.capacity_⟩, pos)
  else
    let number := pos
    (std_copy a.vec_ 0 a.size_ (ArrayPtr.create E (grown a.capacity_)) 0).bind fun t1 =>
    (std_fill t1 a.size_ a.capacity_ E.dflt).bind fun t2 =>
    (std_copy_backward t2 number a.capacity_ (a.capacity_ + 1)).bind fun t3 =>
    (value.read a.vec_).bind fun x =>
    (wr t3 number x).bind fun t4 =>
      some (⟨t4, a.size_ + 1, grown a.capacity_⟩, number)

/-- Largest `size_t`. -/
def SIZE_MAX : Nat := 2 ^ 64 - 1

/-- Largest `int`. -/
def INT_MAX : Nat := 2 ^ 31 - 1

/-- Subtraction `n - 1` in `size_t`: it wraps at zero. -/
def pred_size_t (n : Nat) : Nat := if n = 0 then SIZE_MAX else n - 1

/-- Conversion `static_cast<int>(n)` of an unsigned value: modulo `2 ^ 32`, read
as a signed number. -/
def toInt32 (n : Nat) : Int :=
  if n % 2 ^ 32 < 2 ^ 31 then ((n % 2 ^ 32 : Nat) : Int) else ((n % 2 ^ 32 : Nat) : Int) - 2 ^ 32

/-- First loop of `Erase`, `for (auto i = 0; i < aim; ++i) temp[i] = vec_[i]`,
with `n` iterations left at counter `i`; `++i` on the largest `int` is
undefined. -/
def eraseFrontLoop (vec : List T) : Nat → Nat → List T → Option (List T)
  | _, 0, temp => some temp
  | i, n + 1, temp =>
    (rd vec i).bind fun x => (wr temp i x).bind fun temp1 =>
      if INT_MAX < i + 1 then none else eraseFrontLoop vec (i + 1) n temp1

/-- Second loop of `Erase`, `for (...; i > aim; --i) temp[i - 1] = vec_[i]`,
with `n` iterations left at counter `i`. -/
def eraseBackLoop (vec : List T) : Nat → Nat → List T → Option (List T)
  | _, 0, temp => some temp
  | i, n + 1, temp =>
    (rd vec i).bind fun x => (wr temp (i - 1) x).bind (eraseBackLoop vec (i - 1) n)

/-- Method `Erase(ConstIterator pos)`; the result is the vector and the
returned iterator, as an index into the final block. -/
def Erase (E : Elem T) (a : SimpleVector T) (pos : Nat) : Option (SimpleVector T × Nat) :=
  let aim := pos
  if pos = a.size_ then
    some (⟨a.vec_, pred_size_t a.size_, a.capacity_⟩, aim)
  else
    (wr (ArrayPtr.create E a.size_) (pred_size_t a.size_) E.dflt).bind fun t1 =>
    (eraseFrontLoop a.vec_ 0 aim t1).bind fun t2 =>
    (eraseBackLoop a.vec_ (toInt32 (pred_size_t a.size_)).toNat
        (toInt32 (pred_size_t a.size_) - (aim : Int)).toNat t2).bind fun t3 =>
      some (⟨t3, pred_size_t a.size_, a.capacity_⟩, aim)

/-- Method `Clear`. -/
def Clear (a : SimpleVector T) : SimpleVector T := ⟨a.vec_, 0, a.capacity_⟩

/-- Method `PopBack`. -/
def PopBack (a : SimpleVector T) : SimpleVector T := ⟨a.vec_, pred_size_t a.size_, a.capacity_⟩

/-- Method `Resize(size_t size)`. -/
def Resize (E : Elem T) (a : SimpleVector T) (size : Nat) : Option (SimpleVector T) :=
  if size ≤ a.size_ then
    some ⟨a.vec_, size, a.capacity_⟩
  else if size ≤ a.capacity_ then
    (std_fill a.vec_ a.size_ size E.dflt).bind fun v =>
      some ⟨v, size, a.capacity_⟩
  else
    (std_copy a.vec_ 0 a.size_ (ArrayPtr.create E size) 0).bind fun t1 =>
    (std_fill t1 a.size_ size E.dflt).bind fun t2 =>
      some ⟨t2, size, size⟩

/-- Method `Reserve(size_t capacity)`. -/
def Reserve (E : Elem T) (a : SimpleVector T) (capacity : Nat) : Option (SimpleVector T) :=
  if a.capacity_ < capacity then
    (std_copy a.vec_ 0 a.size_ (ArrayPtr.create E capacity) 0).bind fun t1 =>
    (std_fill t1 a.size_ capacity E.dflt).bind fun t2 =>
      some ⟨t2, a.size_, capacity⟩
  else
    some a

/-- What a call that returns a reference to an element may do. -/
inductive Access (T : Type) where
  | ok : T → Access T
  | out_of_range : Access T
  | undefined : Access T
  deriving DecidableEq, Repr

/-- Unchecked `operator[](size_t index)`, `vec_[index]`. -/
def index (a : SimpleVector T) (i : Nat) : Access T :=
  match rd a.vec_ i with
  | some x => Access.ok x
  | none => Access.undefined

/-- Method `At(size_t index)`:
`(index >= size_) ? throw std::out_of_range(...) : vec_[index]`. -/
def At (a : SimpleVector T) (i : Nat) : Access T :=
  if i ≥ a.size_ then Access.out_of_range else
    match rd a.vec_ i with
    | some x => Access.ok x
    | none => Access.undefined

/-- Loop of `std::equal`: `n` pairs from `l[i]`, `r[j]` on, stopping at the
first pair that differs. -/
def equalLoop [DecidableEq T] (l r : List T) : Nat → Nat → Nat → Option Bool
  | _, _, 0 => some true
  | i, j, n + 1 =>
    (rd l i).bind fun x => (rd r j).bind fun y =>
      if x = y then equalLoop l r (i + 1) (j + 1) n else some false

/-- Loop of `std::lexicographical_compare` with `n1` elements left in the first
range and `n2` in the second. -/
def lexLoop [LT T] [DecidableRel (fun x y : T => x < y)] (l r : List T) :
    Nat → Nat → Nat → Nat → Option Bool
  | _, _, 0, n2 => some (decide (n2 ≠ 0))
  | _, _, _ + 1, 0 => some false
  | i, j, n1 + 1, n2 + 1 =>
    (rd l i).bind fun x => (rd r j).bind fun y =>
      if x < y then some true
      else if y < x then some false
      else lexLoop l r (i + 1) (j + 1) n1 n2

/-- Comparison `operator==`. -/
def opEq [DecidableEq T] (lhs rhs : SimpleVector T) : Option Bool :=
  if lhs.GetSize = rhs.GetSize then equalLoop lhs.vec_ rhs.vec_ 0 0 lhs.size_ else some false

/-- Comparison `operator!=`. -/
def opNe [DecidableEq T] (lhs rhs : SimpleVector T) : Option Bool :=
  (opEq lhs rhs).map not

/-- Comparison `operator<`. -/
def opLt [LT T] [DecidableRel (fun x y : T => x < y)] (lhs rhs : SimpleVector T) :
    Option Bool :=
  lexLoop lhs.vec_ rhs.vec_ 0 0 lhs.size_ rhs.size_

/-- Comparison `operator>`. -/
def opGt [LT T] [DecidableRel (fun x y : T => x < y)] (lhs rhs : SimpleVector T) :
    Option Bool :=
  opLt rhs lhs

/-- Comparison `operator<=`. -/
def opLe [LT T] [DecidableRel (fun x y : T => x < y)] (lhs rhs : SimpleVector T) :
    Option Bool :=
  (opGt lhs rhs).map not

/-- Comparison `operator>=`. -/
def opGe [LT T] [DecidableRel (fun x y : T => x < y)] (lhs rhs : SimpleVector T) :
    Option Bool :=
  (opLt lhs rhs).map not

/-- Repeated `PushBack` of the items of a list, in order. -/
def pushAll (E : Elem T) : SimpleVector T → List T → Option (SimpleVector T)
  | a, [] => some a
  | a, x :: xs => (PushBack E a x).bind fun b => pushAll E b xs

/-- An element type whose default constructor gives 0, also in the slots of a
new block. -/
def zeroElem : Elem Nat := ⟨0, fun _ => 0⟩

/-- A vector of `2 ^ 31 + 1` elements, all equal to 1, as
`SimpleVector<Type>(2147483649, 1)` builds it. -/
def longVector : SimpleVector Nat := ⟨List.replicate (2 ^ 31 + 1) 1, 2 ^ 31 + 1, 2 ^ 31 + 1⟩

/-- A vector of `2 ^ 31` elements, all equal to 1, as
`SimpleVector<Type>(2147483648, 1)` builds it. -/
def fullVector : SimpleVector Nat := ⟨List.replicate (2 ^ 31) 1, 2 ^ 31, 2 ^ 31⟩

/-! ## Constructors, assignment, swap and the by-move overloads -/

/-- Private method `SimpleVectorInit(size, value)`, run on the block `vec_` that
the member initialiser has built: both counters become `size` and, for
`size > 0`, `std::fill(begin(), end(), value)`. -/
def SimpleVectorInit (vec_ : List T) (size : Nat) (value : T) : Option (SimpleVector T) :=
  if size > 0 then
    (std_fill vec_ 0 size value).bind fun v => some ⟨v, size, size⟩
  else
    some ⟨vec_, size, size⟩

/-- Constructor `SimpleVector(size_t size, const Type& value)`. -/
def ctorSizeValue (E : Elem T) (size : Nat) (value : T) : Option (SimpleVector T) :=
  SimpleVectorInit (ArrayPtr.create E size) size value

/-- Constructor `SimpleVector(size_t size)`: `SimpleVectorInit(size)` with the
default argument `Type()`. -/
def ctorSize (E : Elem T) (size : Nat) : Option (SimpleVector T) :=
  SimpleVectorInit (ArrayPtr.create E size) size E.dflt

/-- Constructor `SimpleVector(std::initializer_list<Type> init)`. -/
def ctorInit (E : Elem T) (init : List T) : Option (SimpleVector T) :=
  if init.length > 0 then
    (std_copy init 0 init.length (ArrayPtr.create E init.length) 0).bind fun v =>
      some ⟨v, init.length, init.length⟩
  else
    some ⟨ArrayPtr.create E init.length, init.length, init.length⟩

/-- Copy constructor `SimpleVector(const SimpleVector& other)`, on the path
without `std::bad_alloc`; the loop `for (it = temp.Get() + size_; it !=
temp.Get() + capacity_; ++it) *it = Type()` is the loop of `std::fill`. -/
def ctorCopy (E : Elem T) (other : SimpleVector T) : Option (SimpleVector T) :=
  (std_copy other.vec_ 0 other.size_ (ArrayPtr.create E other.GetCapacity) 0).bind fun t1 =>
  (std_fill t1 other.GetSize other.GetCapacity E.dflt).bind fun t2 =>
    some ⟨t2, other.GetSize, other.GetCapacity⟩

/-- Move constructor `SimpleVector(SimpleVector&& vec)`: the new vector and the
state `vec` is left in. -/
def ctorMove (vec : SimpleVector T) : SimpleVector T × SimpleVector T :=
  (⟨vec.vec_, vec.size_, vec.capacity_⟩, ⟨[], 0, 0⟩)

/-- Class `ReserveProxyObj`. -/
structure ReserveProxyObj where
  new_capacity_ : Nat
  deriving DecidableEq, Repr

/-- Method `ReserveProxyObj::GetCapacity`. -/
def ReserveProxyObj.GetCapacity (obj : ReserveProxyObj) : Nat := obj.new_capacity_

/-- Free function `Reserve(size_t capacity_to_reserve)`; the method of the
vector has the name `Reserve` here. -/
def ReserveProxy (capacity_to_reserve : Nat) : ReserveProxyObj := ⟨capacity_to_reserve⟩

/-- Constructor `SimpleVector(const ReserveProxyObj& obj)`: `vec_` and `size_`
keep their default member initialisers, `capacity_` is taken from `obj`, and
for `capacity_ > 0` the body runs `std::fill(begin(), end(), Type())`. -/
def ctorReserve (E : Elem T) (obj : ReserveProxyObj) : Option (SimpleVector T) :=
  if obj.GetCapacity > 0 then
    (std_fill ([] : List T) 0 0 E.dflt).bind fun v => some ⟨v, 0, obj.GetCapacity⟩
  else
    some ⟨[], 0, obj.GetCapacity⟩

/-- Method `swap(SimpleVector& other)`: the states of `*this` and of `other`
afterwards. -/
def swap (a other : SimpleVector T) : SimpleVector T × SimpleVector T :=
  (⟨other.vec_, other.size_, other.capacity_⟩, ⟨a.vec_, a.size_, a.capacity_⟩)

/-- Copy assignment `operator=(const SimpleVector& rhs)`; `same` tells whether
`this == &rhs`.  The copy `rhs_copy` is swapped in and then destroyed. -/
def assignCopy (E : Elem T) (a rhs : SimpleVector T) (same : Bool) : Option (SimpleVector T) :=
  if same then some a
  else (ctorCopy E rhs).bind fun rhs_copy => some (swap a rhs_copy).1

/-- Move assignment `operator=(SimpleVector&& rhs)`; `same` tells whether
`this == &rhs`.  The result is the state of `*this` and the state of `rhs`. -/
def assignMove (a rhs : SimpleVector T) (same : Bool) : SimpleVector T × SimpleVector T :=
  if same then (a, rhs)
  else (⟨rhs.vec_, rhs.size_, rhs.capacity_⟩, ⟨a.vec_, 0, 0⟩)

/-- Method `PushBack(Type&& item)`.  The loops count with `size_t` and stop on
`i < size_`, `i < capacity_`. -/
def PushBackMove (E : Elem T) (a : SimpleVector T) (item : T) : Option (SimpleVector T) :=
  if a.size_ < a.capacity_ then
    (wr a.vec_ a.size_ item).bind fun v =>
      some ⟨v, a.size_ + 1, a.capacity_⟩
  else
    (copyLoop a.vec_ 0 0 a.size_ (ArrayPtr.create E (grown a.capacity_))).bind fun t1 =>
    (fillLoop E.dflt a.size_ (a.capacity_ - a.size_) t1).bind fun t2 =>
    (wr t2 a.size_ item).bind fun t3 =>
      some ⟨t3, a.size_ + 1, grown a.capacity_⟩

/-- Shifting loop of `Insert(ConstIterator, Type&&)`,
`for (int i = ...; i > pos; --i) b[i] = std::move(b[i - 1])`, with `n`
iterations left at counter `i`. -/
def insertShiftLoop : Nat → Nat → List T → Option (List T)
  | _, 0, b => some b
  | i, n + 1, b =>
    (rd b (i - 1)).bind fun x => (wr b i x).bind (insertShiftLoop (i - 1) n)

/-- Method `Insert(ConstIterator pos, Type&& value)`; the counter of the
shifting loop starts at `static_cast<int>(end() - begin() + 1)`, in the growing
branch at `static_cast<int>(capacity_ + 1)`. -/
def InsertMove (E : Elem T) (a : SimpleVector T) (pos : Nat) (value : T) :
    Option (SimpleVector T × Nat) :=
  if a.size_ < a.capacity_ then
    (insertShiftLoop (toInt32 (a.size_ + 1)).toNat
        (toInt32 (a.size_ + 1) - (pos : Int)).toNat a.vec_).bind fun v1 =>
    (wr v1 pos value).bind fun v2 =>
      some (⟨v2, a.size_ + 1, a.capacity_⟩, pos)
  else
    let number := pos
    (copyLoop a.vec_ 0 0 a.size_ (ArrayPtr.create E (grown a.capacity_))).bind fun t1 =>
    (fillLoop E.dflt a.size_ (a.capacity_ - a.size_) t1).bind fun t2 =>
    (insertShiftLoop (toInt32 (a.capacity_ + 1)).toNat
        (toInt32 (a.capacity_ + 1) - (number : Int)).toNat t2).bind fun t3 =>
    (wr t3 number value).bind fun t4 =>
      some (⟨t4, a.size_ + 1, grown a.capacity_⟩, number)

end SimpleVector

/-! ## The raw buffer as an owner -/

/-- Class `ArrayPtr<Type>` seen as an owner: `raw_ptr_` is the address of the
block it owns, or null (`none`). -/
structure ArrayPtr where
  raw_ptr_ : Option Nat
  deriving DecidableEq, Repr

namespace ArrayPtr

/-- Default constructor: `raw_ptr_ = nullptr`. -/
def ctorDefault : ArrayPtr := ⟨none⟩

/-- Constructor `ArrayPtr(size_t size)`; `block` is the address that
`new Type[size]` returns. -/
def ctorSize (size : Nat) (block : Nat) : ArrayPtr :=
  if size = 0 then ⟨none⟩ else ⟨some block⟩

/-- Constructor `ArrayPtr(Type* raw_ptr)`: adopts the pointer. -/
def ctorAdopt (raw_ptr : Option Nat) : ArrayPtr := ⟨raw_ptr⟩

/-- Method `Get`. -/
def Get (p : ArrayPtr) : Option Nat := p.raw_ptr_

/-- Method `Release`: the returned pointer and the state afterwards. -/
def Release (p : ArrayPtr) : Option Nat × ArrayPtr := (p.raw_ptr_, ⟨none⟩)

/-- Move constructor `ArrayPtr(ArrayPtr&& ptr)`: the new object, whose
`raw_ptr_` starts as null, and the state `ptr` is left in. -/
def ctorMove (ptr : ArrayPtr) : ArrayPtr × ArrayPtr :=
  if (none : Option Nat) ≠ ptr.Get then (⟨ptr.Release.1⟩, ptr.Release.2)
  else (⟨none⟩, ptr)

/-- Move assignment `operator=(ArrayPtr&& other)`,
`raw_ptr_ = std::move(other.raw_ptr_)`: the states of `*this` and of `other`
afterwards. -/
def assignMove (_a other : ArrayPtr) : ArrayPtr × ArrayPtr :=
  (⟨other.raw_ptr_⟩, other)

/-- Conversion `operator bool`. -/
def toBool (p : ArrayPtr) : Bool :=
  if p.raw_ptr_ = none then false else true

/-- Method `swap`: the states of `*this` and of `other` afterwards. -/
def swap (a other : ArrayPtr) : ArrayPtr × ArrayPtr :=
  (⟨other.raw_ptr_⟩, ⟨a.raw_ptr_⟩)

/-- Whether the object owns the block at `block`. -/
def owns (p : ArrayPtr) (block : Nat) : Bool := p.raw_ptr_ == some block

end ArrayPtr

/-! ## The loops, slot by slot -/

namespace SimpleVector

variable {T : Type}

theorem wr_of_lt (b : List T) (i : Nat) (x : T) (h : i < b.length) :
    wr b i x = some (b.set i x) := by
  simp [wr, h]

theorem rd_of_lt (b : List T) (i : Nat) (h : i < b.length) :
    rd b i = some (b.get ⟨i, h⟩) := by
  simp [rd, List.getElem?_eq_getElem h]

theorem create_length (E : Elem T) (n : Nat) : (ArrayPtr.create E n).length = n := by
  simp [ArrayPtr.create]

theorem fillLoop_spec (v : T) (n : Nat) : ∀ (i : Nat) (b : List T), i + n ≤ b.length →
    ∃ r, fillLoop v i n b = some r ∧ r.length = b.length ∧
      ∀ j, r[j]? = if i ≤ j ∧ j < i + n then some v else b[j]? := by
  induction n with
  | zero =>
    intro i b _
    refine ⟨b, rfl, rfl, ?_⟩
    intro j
    rw [if_neg (by omega)]
  | succ n ih =>
    intro i b h
    have hi : i < b.length := by omega
    obtain ⟨r, hr, hlen, hget⟩ := ih (i + 1) (b.set i v) (by simp; omega)
    refine ⟨r, ?_, ?_, ?_⟩
    · simp [fillLoop, wr_of_lt b i v hi, hr]
    · simpa using hlen
    · intro j
      rw [hget j, List.getElem?_set]
      by_cases h1 : i = j
      · subst h1
        simp [hi]
      · by_cases h2 : i + 1 ≤ j ∧ j < i + 1 + n
        · have : i ≤ j ∧ j < i + (n + 1) := by omega
          simp [h2, this]
        · have : ¬ (i ≤ j ∧ j < i + (n + 1)) := by omega
          simp [h1, h2, this]

theorem copyLoop_spec (src : List T) (n : Nat) : ∀ (i d : Nat) (dst : List T),
    i + n ≤ src.length → d + n ≤ dst.length →
    ∃ r, copyLoop src i d n dst = some r ∧ r.length = dst.length ∧
      ∀ j, r[j]? = if d ≤ j ∧ j < d + n then src[j - d + i]? else dst[j]? := by
  induction n with
  | zero =>
    intro i d dst _ _
    refine ⟨dst, rfl, rfl, ?_⟩
    intro j
    rw [if_neg (by omega)]
  | succ n ih =>
    intro i d dst hs hd
    have hi : i < src.length := by omega
    have hdl : d < dst.length := by omega
    obtain ⟨r, hr, hlen, hget⟩ :=
      ih (i + 1) (d + 1) (dst.set d (src.get ⟨i, hi⟩)) (by omega) (by simp; omega)
    refine ⟨r, ?_, ?_, ?_⟩
    · simp only [copyLoop, rd_of_lt src i hi, Option.some_bind, wr_of_lt dst d _ hdl, hr]
    · simpa using hlen
    · intro j
      rw [hget j, List.getElem?_set]
      by_cases h1 : d = j
      · subst h1
        have : ¬ (d + 1 ≤ d ∧ d < d + 1 + n) := by omega
        simp [hdl, this, List.getElem?_eq_getElem hi]
      · by_cases h2 : d + 1 ≤ j ∧ j < d + 1 + n
        · have h3 : d ≤ j ∧ j < d + (n + 1) := by omega
          have h4 : j - (d + 1) + (i + 1) = j - d + i := by omega
          simp [h2, h3, h4]
        · have : ¬ (d ≤ j ∧ j < d + (n + 1)) := by omega
          simp [h1, h2, this]

theorem copyBackwardLoop_spec (n : Nat) : ∀ (last : Nat) (b : List T),
    n ≤ last → last + 1 ≤ b.length →
    ∃ r, copyBackwardLoop last (last + 1) n b = some r ∧ r.length = b.length ∧
      ∀ j, r[j]? = if last - n < j ∧ j ≤ last then b[j - 1]? else b[j]? := by
  induction n with
  | zero =>
    intro last b _ _
    refine ⟨b, rfl, rfl, ?_⟩
    intro j
    rw [if_neg (by omega)]
  | succ n ih =>
    intro last b hn hl
    have h1 : last - 1 < b.length := by omega
    have h2 : last < b.length := by omega
    obtain ⟨r, hr, hlen, hget⟩ :=
      ih (last - 1) (b.set last (b.get ⟨last - 1, h1⟩)) (by omega) (by simp; omega)
    have e1 : last - 1 + 1 = last := by omega
    rw [e1] at hr
    refine ⟨r, ?_, ?_, ?_⟩
    · simp only [copyBackwardLoop, rd_of_lt b (last - 1) h1, Option.some_bind,
        Nat.add_sub_cancel, wr_of_lt b last _ h2, hr]
    · simpa using hlen
    · intro j
      rw [hget j]
      by_cases h3 : last - 1 - n < j ∧ j ≤ last - 1
      · have h4 : last - (n + 1) < j ∧ j ≤ last := by omega
        have h5 : last ≠ j - 1 := by omega
        simp [h3, h4, List.getElem?_set, h5]
      · by_cases h6 : j = last
        · subst h6
          have h4 : j - (n + 1) < j ∧ j ≤ j := by omega
          simp [h3, h4, List.getElem?_set, h2, List.getElem?_eq_getElem h1]
        · have h4 : ¬ (last - (n + 1) < j ∧ j ≤ last) := by omega
          have h5 : last ≠ j := by omega
          simp [h3, h4, List.getElem?_set, h5]

theorem create_getElem? (E : Elem T) (n j : Nat) :
    (ArrayPtr.create E n)[j]? = if j < n then some (E.fresh j) else none := by
  unfold ArrayPtr.create
  rw [List.getElem?_map]
  by_cases h : j < n
  · simp [List.getElem?_range h, h]
  · have : (List.range n)[j]? = none := List.getElem?_eq_none (by simp; omega)
    simp [this, h]

theorem std_fill_spec (b : List T) (first last : Nat) (v : T)
    (h1 : first ≤ last) (h2 : last ≤ b.length) :
    ∃ r, std_fill b first last v = some r ∧ r.length = b.length ∧
      ∀ j, r[j]? = if first ≤ j ∧ j < last then some v else b[j]? := by
  obtain ⟨r, hr, hlen, hget⟩ := fillLoop_spec v (last - first) first b (by omega)
  refine ⟨r, ?_, hlen, ?_⟩
  · simp [std_fill, Nat.not_lt.mpr h1, hr]
  · intro j
    rw [hget j]
    have e : first + (last - first) = last := by omega
    rw [e]

theorem std_copy_spec (src : List T) (last : Nat) (dst : List T)
    (h1 : last ≤ src.length) (h2 : last ≤ dst.length) :
    ∃ r, std_copy src 0 last dst 0 = some r ∧ r.length = dst.length ∧
      ∀ j, r[j]? = if j < last then src[j]? else dst[j]? := by
  obtain ⟨r, hr, hlen, hget⟩ := copyLoop_spec src last 0 0 dst (by omega) (by omega)
  refine ⟨r, ?_, hlen, ?_⟩
  · simp [std_copy, hr]
  · intro j
    rw [hget j]
    simp

theorem std_copy_backward_spec (b : List T) (first last : Nat)
    (h1 : first ≤ last) (h2 : last + 1 ≤ b.length) :
    ∃ r, std_copy_backward b first last (last + 1) = some r ∧ r.length = b.length ∧
      ∀ j, r[j]? = if first < j ∧ j ≤ last then b[j - 1]? else b[j]? := by
  obtain ⟨r, hr, hlen, hget⟩ := copyBackwardLoop_spec (last - first) last b (by omega) h2
  refine ⟨r, ?_, hlen, ?_⟩
  · simp [std_copy_backward, Nat.not_lt.mpr h1, hr]
  · intro j
    rw [hget j]
    have e : last - (last - first) = first := by omega
    rw [e]

theorem grown_pos (c : Nat) : c < grown c := by
  unfold grown
  split <;> omega

/-- The live elements are determined by the slots below `size_`. -/
theorem live_getElem? (a : SimpleVector T) (j : Nat) :
    (live a)[j]? = if j < a.size_ then a.vec_[j]? else none := by
  simp [live, List.getElem?_take]

theorem live_length (a : SimpleVector T) (h : a.size_ ≤ a.vec_.length) :
    (live a).length = a.size_ := by
  simp [live, h]

/-- The state after `PushBack`, slot by slot. -/
theorem PushBack_slots (E : Elem T) (a : SimpleVector T) (v : T)
    (hlen : a.vec_.length = a.capacity_) (hsz : a.size_ ≤ a.capacity_) :
    ∃ b, PushBack E a v = some b ∧ b.size_ = a.size_ + 1 ∧
      b.capacity_ = (if a.size_ < a.capacity_ then a.capacity_ else grown a.capacity_) ∧
      b.vec_.length = b.capacity_ ∧
      (∀ j, j < a.size_ → b.vec_[j]? = a.vec_[j]?) ∧ b.vec_[a.size_]? = some v := by
  by_cases hc : a.size_ < a.capacity_
  · have hi : a.size_ < a.vec_.length := by omega
    refine ⟨⟨a.vec_.set a.size_ v, a.size_ + 1, a.capacity_⟩, ?_, rfl, ?_, ?_, ?_, ?_⟩
    · simp [PushBack, hc, wr_of_lt a.vec_ a.size_ v hi]
    · simp [hc]
    · simpa using hlen
    · intro j hj
      have : a.size_ ≠ j := by omega
      simp [List.getElem?_set, this]
    · simp [List.getElem?_set, hi]
  · have hg := grown_pos a.capacity_
    obtain ⟨t1, ht1, hl1, hg1⟩ := std_copy_spec a.vec_ a.size_
      (ArrayPtr.create E (grown a.capacity_)) (by omega) (by rw [create_length]; omega)
    rw [create_length] at hl1
    obtain ⟨t2, ht2, hl2, hg2⟩ := std_fill_spec t1 a.size_ a.capacity_ E.dflt hsz (by omega)
    have hi : a.size_ < t2.length := by omega
    refine ⟨⟨t2.set a.size_ v, a.size_ + 1, grown a.capacity_⟩, ?_, rfl, ?_, ?_, ?_, ?_⟩
    · simp [PushBack, hc, ht1, ht2, wr_of_lt t2 a.size_ v hi]
    · simp [hc]
    · simp; omega
    · intro j hj
      have h1 : a.size_ ≠ j := by omega
      have h2 : ¬ (a.size_ ≤ j ∧ j < a.capacity_) := by omega
      simp [List.getElem?_set, h1, hg2 j, h2, hg1 j, hj]
    · simp [List.getElem?_set, hi]

theorem eraseFrontLoop_spec (vec : List T) (n : Nat) : ∀ (i : Nat) (temp : List T),
    i + n ≤ vec.length → i + n ≤ temp.length → i + n ≤ INT_MAX →
    ∃ r, eraseFrontLoop vec i n temp = some r ∧ r.length = temp.length ∧
      ∀ j, r[j]? = if i ≤ j ∧ j < i + n then vec[j]? else temp[j]? := by
  induction n with
  | zero =>
    intro i temp _ _ _
    refine ⟨temp, rfl, rfl, ?_⟩
    intro j
    rw [if_neg (by omega)]
  | succ n ih =>
    intro i temp hv ht hm
    have hi : i < vec.length := by omega
    have hti : i < temp.length := by omega
    obtain ⟨r, hr, hlen, hget⟩ :=
      ih (i + 1) (temp.set i (vec.get ⟨i, hi⟩)) (by omega) (by simp; omega) (by omega)
    have hno : ¬ INT_MAX < i + 1 := by omega
    refine ⟨r, ?_, ?_, ?_⟩
    · simp only [eraseFrontLoop, rd_of_lt vec i hi, Option.some_bind, wr_of_lt temp i _ hti,
        if_neg hno, hr]
    · simpa using hlen
    · intro j
      rw [hget j, List.getElem?_set]
      by_cases h1 : i = j
      · subst h1
        have : ¬ (i + 1 ≤ i ∧ i < i + 1 + n) := by omega
        simp [hti, this, List.getElem?_eq_getElem hi]
      · by_cases h2 : i + 1 ≤ j ∧ j < i + 1 + n
        · have h3 : i ≤ j ∧ j < i + (n + 1) := by omega
          simp [h2, h3]
        · have : ¬ (i ≤ j ∧ j < i + (n + 1)) := by omega
          simp [h1, h2, this]

theorem eraseBackLoop_spec (vec : List T) (n : Nat) : ∀ (i : Nat) (temp : List T),
    n ≤ i → i < vec.length → i ≤ temp.length →
    ∃ r, eraseBackLoop vec i n temp = some r ∧ r.length = temp.length ∧
      ∀ j, r[j]? = if i - n ≤ j ∧ j < i then vec[j + 1]? else temp[j]? := by
  induction n with
  | zero =>
    intro i temp _ _ _
    refine ⟨temp, rfl, rfl, ?_⟩
    intro j
    rw [if_neg (by omega)]
  | succ n ih =>
    intro i temp hn hv ht
    have hti : i - 1 < temp.length := by omega
    obtain ⟨r, hr, hlen, hget⟩ :=
      ih (i - 1) (temp.set (i - 1) (vec.get ⟨i, hv⟩)) (by omega) (by omega) (by simp; omega)
    refine ⟨r, ?_, ?_, ?_⟩
    · simp only [eraseBackLoop, rd_of_lt vec i hv, Option.some_bind,
        wr_of_lt temp (i - 1) _ hti, hr]
    · simpa using hlen
    · intro j
      rw [hget j, List.getElem?_set]
      by_cases h1 : i - 1 = j
      · subst h1
        have h2 : ¬ (i - 1 - n ≤ i - 1 ∧ i - 1 < i - 1) := by omega
        have h3 : i - (n + 1) ≤ i - 1 ∧ i - 1 < i := by omega
        have h4 : i - 1 + 1 = i := by omega
        simp only [if_neg h2, if_pos h3, if_pos hti, h4]
        simp [List.getElem?_eq_getElem hv]
      · by_cases h2 : i - 1 - n ≤ j ∧ j < i - 1
        · have h3 : i - (n + 1) ≤ j ∧ j < i := by omega
          rw [if_pos h2, if_pos h3]
        · have h3 : ¬ (i - (n + 1) ≤ j ∧ j < i) := by omega
          rw [if_neg h2, if_neg h3, if_neg h1]

/-- The state after the by-copy `Insert`, slot by slot. -/
theorem Insert_slots (E : Elem T) (a : SimpleVector T) (p : Nat) (v : T)
    (hlen : a.vec_.length = a.capacity_) (hsz : a.size_ ≤ a.capacity_) (hp : p ≤ a.size_) :
    ∃ b, Insert E a p (ConstRef.outside v) = some (b, p) ∧ b.size_ = a.size_ + 1 ∧
      b.capacity_ = (if a.size_ < a.capacity_ then a.capacity_ else grown a.capacity_) ∧
      b.vec_.length = b.capacity_ ∧
      ∀ j, j ≤ a.size_ → b.vec_[j]? =
        if j < p then a.vec_[j]? else if j = p then some v else a.vec_[j - 1]? := by
  by_cases hc : a.size_ < a.capacity_
  · obtain ⟨v1, hv1, hl1, hg1⟩ := std_copy_backward_spec a.vec_ p a.size_ hp (by omega)
    have hi : p < v1.length := by omega
    refine ⟨⟨v1.set p v, a.size_ + 1, a.capacity_⟩, ?_, rfl, ?_, ?_, ?_⟩
    · simp [Insert, ConstRef.read, hc, hv1, wr_of_lt v1 p v hi]
    · simp [hc]
    · simp; omega
    · intro j hj
      simp only [List.getElem?_set, hg1 j]
      by_cases h1 : j < p
      · have h2 : p ≠ j := by omega
        have h3 : ¬ (p < j ∧ j ≤ a.size_) := by omega
        simp [h1, h2, h3]
      · by_cases h2 : j = p
        · subst h2
          simp [hi]
        · have h3 : p ≠ j := by omega
          have h4 : p < j ∧ j ≤ a.size_ := by omega
          simp [h1, h2, h3, h4]
  · have hg := grown_pos a.capacity_
    have hfull : a.size_ = a.capacity_ := by omega
    obtain ⟨t1, ht1, hl1, hg1⟩ := std_copy_spec a.vec_ a.size_
      (ArrayPtr.create E (grown a.capacity_)) (by omega) (by rw [create_length]; omega)
    rw [create_length] at hl1
    obtain ⟨t2, ht2, hl2, hg2⟩ := std_fill_spec t1 a.size_ a.capacity_ E.dflt hsz (by omega)
    obtain ⟨t3, ht3, hl3, hg3⟩ := std_copy_backward_spec t2 p a.capacity_ (by omega) (by omega)
    have hi : p < t3.length := by omega
    refine ⟨⟨t3.set p v, a.size_ + 1, grown a.capacity_⟩, ?_, rfl, ?_, ?_, ?_⟩
    · simp [Insert, ConstRef.read, hc, ht1, ht2, ht3, wr_of_lt t3 p v hi]
    · simp [hc]
    · simp; omega
    · intro j hj
      have hfill : ∀ k : Nat, t2[k]? = t1[k]? := by
        intro k
        rw [hg2 k, if_neg (by omega)]
      simp only [List.getElem?_set, hg3 j, hfill, hg1]
      by_cases h1 : j < p
      · have h2 : p ≠ j := by omega
        have h3 : ¬ (p < j ∧ j ≤ a.capacity_) := by omega
        have h4 : j < a.size_ := by omega
        simp [h1, h2, h3, h4]
      · by_cases h2 : j = p
        · subst h2
          simp [hi]
        · have h3 : p ≠ j := by omega
          have h4 : p < j ∧ j ≤ a.capacity_ := by omega
          have h5 : j - 1 < a.size_ := by omega
          simp [h1, h2, h3, h4, h5]

theorem pred_size_t_pos (n : Nat) (h : 0 < n) : pred_size_t n = n - 1 := by
  unfold pred_size_t
  rw [if_neg (by omega)]

theorem toInt32_small (n : Nat) (h : n < 2 ^ 31) : toInt32 n = (n : Int) := by
  unfold toInt32
  have h1 : n % 2 ^ 32 = n := Nat.mod_eq_of_lt (by omega)
  rw [h1, if_pos h]

/-- The state after `Erase` on a vector of at most `2 ^ 31` elements, slot by
slot: the new block has as many slots as the old size. -/
theorem Erase_slots (E : Elem T) (a : SimpleVector T) (p : Nat)
    (hsz : a.size_ ≤ a.vec_.length) (hp : p < a.size_) (hint : a.size_ ≤ 2 ^ 31) :
    ∃ b, Erase E a p = some (b, p) ∧ b.size_ = a.size_ - 1 ∧
      b.capacity_ = a.capacity_ ∧ b.vec_.length = a.size_ ∧
      (∀ j, j < a.size_ - 1 → b.vec_[j]? = if j < p then a.vec_[j]? else a.vec_[j + 1]?) ∧
      b.vec_[a.size_ - 1]? = some E.dflt := by
  have hpred : pred_size_t a.size_ = a.size_ - 1 := pred_size_t_pos _ (by omega)
  have hcast : toInt32 (a.size_ - 1) = ((a.size_ - 1 : Nat) : Int) :=
    toInt32_small _ (by omega)
  have hl0 : (ArrayPtr.create E a.size_).length = a.size_ := create_length E a.size_
  have hw : a.size_ - 1 < (ArrayPtr.create E a.size_).length := by omega
  obtain ⟨t2, ht2, hl2, hg2⟩ := eraseFrontLoop_spec a.vec_ p 0
    ((ArrayPtr.create E a.size_).set (a.size_ - 1) E.dflt) (by omega) (by simp; omega)
    (by unfold INT_MAX; omega)
  simp only [List.length_set, hl0] at hl2
  have hcount : (((a.size_ - 1 : Nat) : Int) - (p : Int)).toNat = a.size_ - 1 - p := by omega
  obtain ⟨t3, ht3, hl3, hg3⟩ := eraseBackLoop_spec a.vec_ (a.size_ - 1 - p) (a.size_ - 1) t2
    (by omega) (by omega) (by omega)
  refine ⟨⟨t3, a.size_ - 1, a.capacity_⟩, ?_, rfl, rfl, ?_, ?_, ?_⟩
  · have hne : p ≠ a.size_ := by omega
    simp only [Erase, if_neg hne, hpred, hcast, Int.toNat_ofNat, hcount,
      wr_of_lt _ _ E.dflt hw, Option.some_bind, ht2, ht3]
  · simp only [hl3, hl2]
  · intro j hj
    simp only [hg3 j, hg2 j]
    by_cases h1 : j < p
    · have h2 : ¬ (a.size_ - 1 - (a.size_ - 1 - p) ≤ j ∧ j < a.size_ - 1) := by omega
      have h3 : 0 ≤ j ∧ j < 0 + p := by omega
      rw [if_neg h2, if_pos h3, if_pos h1]
    · have h2 : a.size_ - 1 - (a.size_ - 1 - p) ≤ j ∧ j < a.size_ - 1 := by omega
      rw [if_pos h2, if_neg h1]
  · simp only [hg3, hg2]
    rw [if_neg (by omega), if_neg (by omega)]
    simp [List.getElem?_set, hw]

/-- Live elements after an insertion at `p`, from the slots. -/
theorem live_of_insert_slots (a b : SimpleVector T) (p : Nat) (v : T)
    (ha : a.size_ ≤ a.vec_.length) (hp : p ≤ a.size_) (hs : b.size_ = a.size_ + 1)
    (hslots : ∀ j, j ≤ a.size_ → b.vec_[j]? =
      if j < p then a.vec_[j]? else if j = p then some v else a.vec_[j - 1]?) :
    live b = (live a).take p ++ v :: (live a).drop p := by
  apply List.ext_getElem?
  intro j
  have hl : ((live a).take p).length = p := by
    rw [List.length_take, live_length a ha]
    omega
  rw [live_getElem?, List.getElem?_append, hl, hs]
  by_cases h1 : j < p
  · have h2 : j < a.size_ + 1 := by omega
    have h3 : j < a.size_ := by omega
    rw [if_pos h2, if_pos h1, hslots j (by omega), if_pos h1, List.getElem?_take,
      if_pos h1, live_getElem?, if_pos h3]
  · rw [if_neg h1]
    by_cases h2 : j = p
    · subst h2
      have h3 : j < a.size_ + 1 := by omega
      rw [if_pos h3, hslots j hp, if_neg h1, if_pos rfl]
      simp
    · obtain ⟨k, hk⟩ : ∃ k, j - p = k + 1 := ⟨j - p - 1, by omega⟩
      rw [hk, List.getElem?_cons_succ, List.getElem?_drop, live_getElem?]
      have e : p + k = j - 1 := by omega
      rw [e]
      by_cases h3 : j < a.size_ + 1
      · have h4 : j - 1 < a.size_ := by omega
        rw [if_pos h3, if_pos h4, hslots j (by omega), if_neg h1, if_neg h2]
      · have h4 : ¬ j - 1 < a.size_ := by omega
        rw [if_neg h3, if_neg h4]

/-- Live elements after the removal of position `p`, from the slots. -/
theorem live_of_erase_slots (a b : SimpleVector T) (p : Nat)
    (ha : a.size_ ≤ a.vec_.length) (hp : p < a.size_) (hs : b.size_ = a.size_ - 1)
    (hslots : ∀ j, j < a.size_ - 1 → b.vec_[j]? =
      if j < p then a.vec_[j]? else a.vec_[j + 1]?) :
    live b = (live a).take p ++ (live a).drop (p + 1) := by
  apply List.ext_getElem?
  intro j
  have hl : ((live a).take p).length = p := by
    rw [List.length_take, live_length a ha]
    omega
  rw [live_getElem?, List.getElem?_append, hl, hs]
  by_cases h1 : j < p
  · have h2 : j < a.size_ - 1 := by omega
    have h3 : j < a.size_ := by omega
    rw [if_pos h2, if_pos h1, hslots j h2, if_pos h1, List.getElem?_take,
      if_pos h1, live_getElem?, if_pos h3]
  · rw [if_neg h1, List.getElem?_drop, live_getElem?]
    have e : p + 1 + (j - p) = j + 1 := by omega
    rw [e]
    by_cases h3 : j < a.size_ - 1
    · have h4 : j + 1 < a.size_ := by omega
      rw [if_pos h3, if_pos h4, hslots j h3, if_neg h1]
    · have h4 : ¬ j + 1 < a.size_ := by omega
      rw [if_neg h3, if_neg h4]

/-- Where `static_cast<int>(size_ - 1)` is not positive, the second loop of
`Erase` does not run: erasing the first element leaves the new block as
`new Type[size_]` made it, but for its last slot. -/
theorem Erase_first_of_wrapped (E : Elem T) (a : SimpleVector T)
    (h0 : 0 < a.size_) (hw : toInt32 (a.size_ - 1) ≤ 0) :
    ∃ b, Erase E a 0 = some (b, 0) ∧ b.size_ = a.size_ - 1 ∧ b.capacity_ = a.capacity_ ∧
      b.vec_.length = a.size_ ∧
      ∀ j, j < a.size_ - 1 → b.vec_[j]? = some (E.fresh j) := by
  have hpred : pred_size_t a.size_ = a.size_ - 1 := pred_size_t_pos _ h0
  have hl : a.size_ - 1 < (ArrayPtr.create E a.size_).length := by
    rw [create_length]
    omega
  have hne : (0 : Nat) ≠ a.size_ := by omega
  have h1 : (toInt32 (a.size_ - 1) - ((0 : Nat) : Int)).toNat = 0 := by omega
  refine ⟨⟨(ArrayPtr.create E a.size_).set (a.size_ - 1) E.dflt, a.size_ - 1, a.capacity_⟩,
    ?_, rfl, rfl, ?_, ?_⟩
  · simp only [Erase, if_neg hne, hpred, wr_of_lt _ _ E.dflt hl, Option.some_bind,
      eraseFrontLoop, h1, eraseBackLoop]
  · simp [create_length]
  · intro j hj
    have h2 : a.size_ - 1 ≠ j := by omega
    have h3 : j < a.size_ := by omega
    simp only [List.getElem?_set, if_neg h2, create_getElem?, if_pos h3]

/-- First pair different: `std::equal` answers false. -/
theorem equalLoop_first_ne [DecidableEq T] (l r : List T) (i j n : Nat) (x y : T)
    (hx : l[i]? = some x) (hy : r[j]? = some y) (hxy : x ≠ y) :
    equalLoop l r i j (n + 1) = some false := by
  simp only [equalLoop, rd, hx, hy, Option.some_bind, if_neg hxy]

/-- For vectors of at most `2 ^ 31` elements `Erase` does what it is meant to:
it returns position `p`, the size drops by one, the live elements are `a[0..p)`
followed by `a[p+1..size)`, and `capacity_` keeps its value. -/
theorem Erase_within_int (E : Elem T) (a : SimpleVector T) (p : Nat)
    (hsz : a.size_ ≤ a.vec_.length) (hp : p < a.size_) (hint : a.size_ ≤ 2 ^ 31) :
    ∃ b, Erase E a p = some (b, p) ∧
      b.GetSize = a.GetSize - 1 ∧
      live b = (live a).take p ++ (live a).drop (p + 1) ∧
      b.GetCapacity = a.GetCapacity := by
  obtain ⟨b, hb, hs, hc, _, hslots, _⟩ := Erase_slots E a p hsz hp hint
  exact ⟨b, hb, hs, live_of_erase_slots a b p hsz hp hs hslots, hc⟩

theorem index_of_getElem? (a : SimpleVector T) (i : Nat) (x : T) (h : a.vec_[i]? = some x) :
    index a i = Access.ok x := by
  simp only [index, rd, h]

/-- Equal sizes and different first elements: `operator==` answers false. -/
theorem opEq_of_first_ne [DecidableEq T] (a b : SimpleVector T) (x y : T)
    (hs : a.size_ = b.size_) (hpos : 0 < a.size_)
    (hx : a.vec_[0]? = some x) (hy : b.vec_[0]? = some y) (hxy : x ≠ y) :
    opEq a b = some false := by
  obtain ⟨k, hk⟩ : ∃ k, a.size_ = k + 1 := ⟨a.size_ - 1, by omega⟩
  have h := equalLoop_first_ne a.vec_ b.vec_ 0 0 k x y hx hy hxy
  simp only [opEq, GetSize, hs, if_pos]
  rw [← hs, hk]
  exact h

/-- The state after `Resize`, slot by slot. -/
theorem Resize_slots (E : Elem T) (a : SimpleVector T) (n : Nat)
    (hlen : a.vec_.length = a.capacity_) (hsz : a.size_ ≤ a.capacity_) :
    ∃ b, Resize E a n = some b ∧ b.size_ = n ∧
      b.capacity_ = (if n ≤ a.capacity_ then a.capacity_ else n) ∧
      b.vec_.length = b.capacity_ ∧
      (∀ j, j < a.size_ → j < n → b.vec_[j]? = a.vec_[j]?) ∧
      (∀ j, a.size_ ≤ j → j < n → b.vec_[j]? = some E.dflt) := by
  by_cases h1 : n ≤ a.size_
  · refine ⟨⟨a.vec_, n, a.capacity_⟩, ?_, rfl, ?_, hlen, ?_, ?_⟩
    · simp [Resize, h1]
    · rw [if_pos (by omega)]
    · intro j _ _
      rfl
    · intro j h2 h3
      omega
  · by_cases h2 : n ≤ a.capacity_
    · obtain ⟨v, hv, hl, hg⟩ := std_fill_spec a.vec_ a.size_ n E.dflt (by omega) (by omega)
      refine ⟨⟨v, n, a.capacity_⟩, ?_, rfl, ?_, ?_, ?_, ?_⟩
      · simp [Resize, h1, h2, hv]
      · rw [if_pos h2]
      · simp only [hl, hlen]
      · intro j h3 _
        simp only [hg j]
        rw [if_neg (by omega)]
      · intro j h3 h4
        simp only [hg j]
        rw [if_pos ⟨h3, h4⟩]
    · obtain ⟨t1, ht1, hl1, hg1⟩ := std_copy_spec a.vec_ a.size_ (ArrayPtr.create E n)
        (by omega) (by rw [create_length]; omega)
      rw [create_length] at hl1
      obtain ⟨t2, ht2, hl2, hg2⟩ := std_fill_spec t1 a.size_ n E.dflt (by omega) (by omega)
      refine ⟨⟨t2, n, n⟩, ?_, rfl, ?_, ?_, ?_, ?_⟩
      · simp [Resize, h1, h2, ht1, ht2]
      · rw [if_neg h2]
      · simp only [hl2, hl1]
      · intro j h3 _
        simp only [hg2 j, hg1 j]
        rw [if_neg (by omega), if_pos h3]
      · intro j h3 h4
        simp only [hg2 j]
        rw [if_pos ⟨h3, h4⟩]

/-- The state after `Reserve` of more than the capacity, slot by slot. -/
theorem Reserve_slots (E : Elem T) (a : SimpleVector T) (n : Nat)
    (hsz : a.size_ ≤ a.capacity_) (hv : a.size_ ≤ a.vec_.length) (hn : a.capacity_ < n) :
    ∃ b, Reserve E a n = some b ∧ b.size_ = a.size_ ∧ b.capacity_ = n ∧ b.vec_.length = n ∧
      (∀ j, j < a.size_ → b.vec_[j]? = a.vec_[j]?) ∧
      (∀ j, a.size_ ≤ j → j < n → b.vec_[j]? = some E.dflt) := by
  obtain ⟨t1, ht1, hl1, hg1⟩ := std_copy_spec a.vec_ a.size_ (ArrayPtr.create E n)
    hv (by rw [create_length]; omega)
  rw [create_length] at hl1
  obtain ⟨t2, ht2, hl2, hg2⟩ := std_fill_spec t1 a.size_ n E.dflt (by omega) (by omega)
  refine ⟨⟨t2, a.size_, n⟩, ?_, rfl, rfl, ?_, ?_, ?_⟩
  · simp [Reserve, hn, ht1, ht2]
  · simp only [hl2, hl1]
  · intro j h3
    simp only [hg2 j, hg1 j]
    rw [if_neg (by omega), if_pos h3]
  · intro j h3 h4
    simp only [hg2 j]
    rw [if_pos ⟨h3, h4⟩]

/-- Same size and same slots below the size: same live elements. -/
theorem live_congr (a b : SimpleVector T) (hs : b.size_ = a.size_)
    (h : ∀ j, j < a.size_ → b.vec_[j]? = a.vec_[j]?) : live b = live a := by
  apply List.ext_getElem?
  intro j
  rw [live_getElem?, live_getElem?, hs]
  by_cases hj : j < a.size_
  · rw [if_pos hj, if_pos hj, h j hj]
  · rw [if_neg hj, if_neg hj]

theorem index_congr (a b : SimpleVector T) (i : Nat) (h : b.vec_[i]? = a.vec_[i]?) :
    index b i = index a i := by
  simp only [index, rd, h]

/-- Live elements after an append, from the slots. -/
theorem live_of_push_slots (a b : SimpleVector T) (v : T)
    (ha : a.size_ ≤ a.vec_.length) (hs : b.size_ = a.size_ + 1)
    (hold : ∀ j, j < a.size_ → b.vec_[j]? = a.vec_[j]?) (hnew : b.vec_[a.size_]? = some v) :
    live b = live a ++ [v] := by
  apply List.ext_getElem?
  intro j
  rw [live_getElem?, List.getElem?_append, live_length a ha, live_getElem?, hs]
  by_cases h1 : j < a.size_
  · rw [if_pos (by omega), if_pos h1, if_pos h1, hold j h1]
  · rw [if_neg h1]
    by_cases h2 : j = a.size_
    · subst h2
      rw [if_pos (by omega), hnew]
      simp
    · rw [if_neg (by omega)]
      obtain ⟨k, hk⟩ : ∃ k, j - a.size_ = k + 1 := ⟨j - a.size_ - 1, by omega⟩
      rw [hk]
      rfl

/-- One `PushBack` keeps the doubling shape of size and capacity: both zero, or
the capacity a power of two with `size ≤ capacity < 2 * size`. -/
theorem PushBack_doubling_step (E : Elem T) (a : SimpleVector T) (v : T)
    (hlen : a.vec_.length = a.capacity_) (hsz : a.size_ ≤ a.capacity_)
    (hinv : (a.size_ = 0 ∧ a.capacity_ = 0) ∨
      ∃ m, a.capacity_ = 2 ^ m ∧ a.capacity_ < 2 * a.size_) :
    ∃ b, PushBack E a v = some b ∧ b.size_ = a.size_ + 1 ∧ b.vec_.length = b.capacity_ ∧
      b.size_ ≤ b.capacity_ ∧ live b = live a ++ [v] ∧
      ∃ m, b.capacity_ = 2 ^ m ∧ b.capacity_ < 2 * b.size_ := by
  obtain ⟨b, hb, hs, hc, hl, hold, hnew⟩ := PushBack_slots E a v hlen hsz
  have hlive := live_of_push_slots a b v (by omega) hs hold hnew
  rcases hinv with ⟨h1, h2⟩ | ⟨m, hm, hlt⟩
  · have hc1 : b.capacity_ = 1 := by
      rw [hc, if_neg (by omega), h2]
      rfl
    exact ⟨b, hb, hs, hl, by omega, hlive, 0, by simpa using hc1, by omega⟩
  · by_cases hr : a.size_ < a.capacity_
    · rw [if_pos hr] at hc
      exact ⟨b, hb, hs, hl, by omega, hlive, m, by omega, by omega⟩
    · rw [if_neg hr] at hc
      have hpos : 0 < a.capacity_ := by
        rw [hm]
        exact Nat.pos_pow_of_pos m (by omega)
      have hg : grown a.capacity_ = 2 * a.capacity_ := by
        unfold grown
        rw [if_pos (by omega)]
      have hc2 : b.capacity_ = 2 ^ (m + 1) := by
        rw [hc, hg, hm, pow_succ]
        omega
      exact ⟨b, hb, hs, hl, by omega, hlive, m + 1, hc2, by omega⟩

/-- Any number of `PushBack` calls keeps the doubling shape. -/
theorem pushAll_doubling (E : Elem T) (xs : List T) : ∀ a : SimpleVector T,
    a.vec_.length = a.capacity_ → a.size_ ≤ a.capacity_ →
    ((a.size_ = 0 ∧ a.capacity_ = 0) ∨ ∃ m, a.capacity_ = 2 ^ m ∧ a.capacity_ < 2 * a.size_) →
    ∃ b, pushAll E a xs = some b ∧ b.size_ = a.size_ + xs.length ∧
      b.vec_.length = b.capacity_ ∧ b.size_ ≤ b.capacity_ ∧ live b = live a ++ xs ∧
      ((b.size_ = 0 ∧ b.capacity_ = 0) ∨
        ∃ m, b.capacity_ = 2 ^ m ∧ b.capacity_ < 2 * b.size_) := by
  induction xs with
  | nil =>
    intro a hlen hsz hinv
    exact ⟨a, rfl, rfl, hlen, hsz, by simp, hinv⟩
  | cons x xs ih =>
    intro a hlen hsz hinv
    obtain ⟨b, hb, hs, hl, hle, hlive, hinv1⟩ := PushBack_doubling_step E a x hlen hsz hinv
    obtain ⟨c, hc, hcs, hcl, hcle, hclive, hcinv⟩ := ih b hl hle (Or.inr hinv1)
    refine ⟨c, ?_, ?_, hcl, hcle, ?_, hcinv⟩
    · simp only [pushAll, hb, Option.some_bind, hc]
    · rw [hcs, hs, List.length_cons]
      omega
    · rw [hclive, hlive]
      simp

/-- A power of two `c` with `k ≤ c < 2 * k` is `2 ^ clog 2 k`. -/
theorem pow_clog_of_between (k m : Nat) (h1 : k ≤ 2 ^ m) (h2 : 2 ^ m < 2 * k) :
    2 ^ m = 2 ^ Nat.clog 2 k := by
  have hle : Nat.clog 2 k ≤ m := (Nat.le_pow_iff_clog_le (by omega)).mp h1
  have hk : k ≤ 2 ^ Nat.clog 2 k := Nat.le_pow_clog (by omega) k
  by_cases heq : Nat.clog 2 k = m
  · rw [heq]
  · exfalso
    have hlt : Nat.clog 2 k + 1 ≤ m := by omega
    have h3 : 2 ^ (Nat.clog 2 k + 1) ≤ 2 ^ m := Nat.pow_le_pow_right (by omega) hlt
    rw [pow_succ] at h3
    omega

/-- The loop of `std::equal` returns, and answers true exactly when all `n`
pairs are equal. -/
theorem equalLoop_spec [DecidableEq T] (l r : List T) (n : Nat) : ∀ (i j : Nat),
    i + n ≤ l.length → j + n ≤ r.length →
    ∃ res, equalLoop l r i j n = some res ∧
      (res = true ↔ ∀ m, m < n → l[i + m]? = r[j + m]?) := by
  induction n with
  | zero =>
    intro i j _ _
    refine ⟨true, rfl, ?_⟩
    simp
  | succ n ih =>
    intro i j hl hr
    have hi : i < l.length := by omega
    have hj : j < r.length := by omega
    have hx : l[i]? = some (l.get ⟨i, hi⟩) := List.getElem?_eq_getElem hi
    have hy : r[j]? = some (r.get ⟨j, hj⟩) := List.getElem?_eq_getElem hj
    by_cases hxy : l.get ⟨i, hi⟩ = r.get ⟨j, hj⟩
    · obtain ⟨res, hres, hiff⟩ := ih (i + 1) (j + 1) (by omega) (by omega)
      refine ⟨res, ?_, ?_⟩
      · simp only [equalLoop, rd, hx, hy, Option.some_bind, if_pos hxy, hres]
      · rw [hiff]
        constructor
        · intro h m hm
          cases m with
          | zero =>
            show l[i]? = r[j]?
            rw [hx, hy, hxy]
          | succ k =>
            have e1 : i + (k + 1) = i + 1 + k := by omega
            have e2 : j + (k + 1) = j + 1 + k := by omega
            rw [e1, e2]
            exact h k (by omega)
        · intro h m hm
          have e1 : i + 1 + m = i + (m + 1) := by omega
          have e2 : j + 1 + m = j + (m + 1) := by omega
          rw [e1, e2]
          exact h (m + 1) (by omega)
    · refine ⟨false, equalLoop_first_ne l r i j n _ _ hx hy hxy, ?_⟩
      constructor
      · intro h
        cases h
      · intro h
        exfalso
        have h0 : l[i]? = r[j]? := h 0 (by omega)
        rw [hx, hy] at h0
        exact hxy (Option.some.inj h0)

/-- What `operator==` answers on vectors whose live elements lie in their
blocks. -/
theorem opEq_spec [DecidableEq T] (a b : SimpleVector T)
    (ha : a.size_ ≤ a.vec_.length) (hb : b.size_ ≤ b.vec_.length) :
    ∃ res, opEq a b = some res ∧
      (res = true ↔ a.size_ = b.size_ ∧ ∀ i, i < a.size_ → a.vec_[i]? = b.vec_[i]?) := by
  by_cases hs : a.size_ = b.size_
  · obtain ⟨res, hres, hiff⟩ := equalLoop_spec a.vec_ b.vec_ a.size_ 0 0 (by omega) (by omega)
    refine ⟨res, ?_, ?_⟩
    · simp only [opEq, GetSize, if_pos hs, hres]
    · rw [hiff]
      constructor
      · intro h
        refine ⟨hs, ?_⟩
        intro i hi
        have := h i hi
        simpa using this
      · intro h m hm
        have := h.2 m hm
        simpa using this
  · refine ⟨false, ?_, ?_⟩
    · simp only [opEq, GetSize, if_neg hs]
    · constructor
      · intro h
        cases h
      · intro h
        exact absurd h.1 hs

theorem index_eq_iff (a b : SimpleVector T) (i j : Nat) :
    index a i = index b j ↔ a.vec_[i]? = b.vec_[j]? := by
  unfold index rd
  cases ha : a.vec_[i]? <;> cases hb : b.vec_[j]? <;> simp

/-- Equal live elements: equal sizes and equal slots below the size. -/
theorem live_eq_iff (a b : SimpleVector T)
    (ha : a.size_ ≤ a.vec_.length) (hb : b.size_ ≤ b.vec_.length) :
    live a = live b ↔ a.size_ = b.size_ ∧ ∀ i, i < a.size_ → a.vec_[i]? = b.vec_[i]? := by
  constructor
  · intro h
    have hs : a.size_ = b.size_ := by
      rw [← live_length a ha, ← live_length b hb, h]
    refine ⟨hs, ?_⟩
    intro i hi
    have h1 := live_getElem? a i
    have h2 := live_getElem? b i
    rw [if_pos hi] at h1
    rw [if_pos (by omega)] at h2
    rw [← h1, ← h2, h]
  · intro h
    exact (live_congr b a h.1 (fun j hj => h.2 j (by omega)))

/-- The loop of `std::lexicographical_compare` returns, and answers true exactly
when, after `k` equal pairs, the first range ends before the second or holds a
smaller element. -/
theorem lexLoop_spec [LinearOrder T] (l r : List T) (n1 : Nat) : ∀ (i j n2 : Nat),
    i + n1 ≤ l.length → j + n2 ≤ r.length →
    ∃ res, lexLoop l r i j n1 n2 = some res ∧
      (res = true ↔ ∃ k, (∀ m, m < k → l[i + m]? = r[j + m]?) ∧
        ((k = n1 ∧ n1 < n2) ∨
          (k < n1 ∧ k < n2 ∧ ∃ x y, l[i + k]? = some x ∧ r[j + k]? = some y ∧ x < y))) := by
  induction n1 with
  | zero =>
    intro i j n2 _ _
    refine ⟨decide (n2 ≠ 0), rfl, ?_⟩
    constructor
    · intro h
      have h2 : n2 ≠ 0 := of_decide_eq_true h
      exact ⟨0, fun m hm => absurd hm (Nat.not_lt_zero m), Or.inl ⟨rfl, by omega⟩⟩
    · rintro ⟨k, _, h | h⟩
      · exact decide_eq_true (by omega)
      · omega
  | succ n1 ih =>
    intro i j n2 hl hr
    cases n2 with
    | zero =>
      refine ⟨false, rfl, ?_⟩
      constructor
      · intro h
        cases h
      · rintro ⟨k, _, h | h⟩ <;> omega
    | succ n2 =>
      have hi : i < l.length := by omega
      have hj : j < r.length := by omega
      have hx : l[i]? = some (l.get ⟨i, hi⟩) := List.getElem?_eq_getElem hi
      have hy : r[j]? = some (r.get ⟨j, hj⟩) := List.getElem?_eq_getElem hj
      by_cases h1 : l.get ⟨i, hi⟩ < r.get ⟨j, hj⟩
      · refine ⟨true, ?_, ?_⟩
        · simp only [lexLoop, rd, hx, hy, Option.some_bind, if_pos h1]
        · constructor
          · intro _
            exact ⟨0, fun m hm => absurd hm (Nat.not_lt_zero m),
              Or.inr ⟨by omega, by omega, _, _, hx, hy, h1⟩⟩
          · intro _
            rfl
      · by_cases h2 : r.get ⟨j, hj⟩ < l.get ⟨i, hi⟩
        · refine ⟨false, ?_, ?_⟩
          · simp only [lexLoop, rd, hx, hy, Option.some_bind, if_neg h1, if_pos h2]
          · constructor
            · intro h
              cases h
            · rintro ⟨k, hk, h⟩
              exfalso
              cases k with
              | zero =>
                rcases h with h | ⟨_, _, x, y, hx1, hy1, hlt⟩
                · omega
                · rw [Nat.add_zero] at hx1 hy1
                  rw [hx] at hx1
                  rw [hy] at hy1
                  rw [← Option.some.inj hx1, ← Option.some.inj hy1] at hlt
                  exact h1 hlt
              | succ k =>
                have h0 := hk 0 (by omega)
                rw [Nat.add_zero, Nat.add_zero, hx, hy] at h0
                rw [Option.some.inj h0] at h2
                exact lt_irrefl _ h2
        · have heq : l.get ⟨i, hi⟩ = r.get ⟨j, hj⟩ :=
            le_antisymm (not_lt.mp h2) (not_lt.mp h1)
          obtain ⟨res, hres, hiff⟩ := ih (i + 1) (j + 1) n2 (by omega) (by omega)
          refine ⟨res, ?_, ?_⟩
          · simp only [lexLoop, rd, hx, hy, Option.some_bind, if_neg h1, if_neg h2, hres]
          · rw [hiff]
            constructor
            · rintro ⟨k, hk, h⟩
              refine ⟨k + 1, ?_, ?_⟩
              · intro m hm
                cases m with
                | zero =>
                  show l[i]? = r[j]?
                  rw [hx, hy, heq]
                | succ m =>
                  have e1 : i + (m + 1) = i + 1 + m := by omega
                  have e2 : j + (m + 1) = j + 1 + m := by omega
                  rw [e1, e2]
                  exact hk m (by omega)
              · have e1 : i + (k + 1) = i + 1 + k := by omega
                have e2 : j + (k + 1) = j + 1 + k := by omega
                rw [e1, e2]
                rcases h with h | ⟨h3, h4, h5⟩
                · exact Or.inl ⟨by omega, by omega⟩
                · exact Or.inr ⟨by omega, by omega, h5⟩
            · rintro ⟨k, hk, h⟩
              cases k with
              | zero =>
                exfalso
                rcases h with h | ⟨_, _, x, y, hx1, hy1, hlt⟩
                · omega
                · rw [Nat.add_zero] at hx1 hy1
                  rw [hx] at hx1
                  rw [hy] at hy1
                  rw [← Option.some.inj hx1, ← Option.some.inj hy1] at hlt
                  exact h1 hlt
              | succ k =>
                refine ⟨k, ?_, ?_⟩
                · intro m hm
                  have e1 : i + 1 + m = i + (m + 1) := by omega
                  have e2 : j + 1 + m = j + (m + 1) := by omega
                  rw [e1, e2]
                  exact hk (m + 1) (by omega)
                · have e1 : i + (k + 1) = i + 1 + k := by omega
                  have e2 : j + (k + 1) = j + 1 + k := by omega
                  rw [e1, e2] at h
                  rcases h with h | ⟨h3, h4, h5⟩
                  · exact Or.inl ⟨by omega, by omega⟩
                  · exact Or.inr ⟨by omega, by omega, h5⟩

/-- The comparison with the ranges exchanged answers false exactly when the
comparison answers true or the two ranges are equal. -/
theorem lexLoop_swap [LinearOrder T] (l r : List T) (n1 : Nat) : ∀ (i j n2 : Nat),
    i + n1 ≤ l.length → j + n2 ≤ r.length →
    ∃ x y, lexLoop l r i j n1 n2 = some x ∧ lexLoop r l j i n2 n1 = some y ∧
      (y = false ↔ (x = true ∨ (n1 = n2 ∧ ∀ m, m < n1 → l[i + m]? = r[j + m]?))) := by
  induction n1 with
  | zero =>
    intro i j n2 _ _
    refine ⟨decide (n2 ≠ 0), false, rfl, ?_, ?_⟩
    · cases n2 <;> rfl
    · constructor
      · intro _
        by_cases h : n2 = 0
        · exact Or.inr ⟨h.symm, fun m hm => absurd hm (Nat.not_lt_zero m)⟩
        · exact Or.inl (decide_eq_true h)
      · intro _
        rfl
  | succ n1 ih =>
    intro i j n2 hl hr
    cases n2 with
    | zero =>
      refine ⟨false, true, rfl, rfl, ?_⟩
      constructor
      · intro h
        cases h
      · rintro (h | ⟨h, _⟩)
        · cases h
        · omega
    | succ n2 =>
      have hi : i < l.length := by omega
      have hj : j < r.length := by omega
      have hx : l[i]? = some (l.get ⟨i, hi⟩) := List.getElem?_eq_getElem hi
      have hy : r[j]? = some (r.get ⟨j, hj⟩) := List.getElem?_eq_getElem hj
      by_cases h1 : l.get ⟨i, hi⟩ < r.get ⟨j, hj⟩
      · have h2 : ¬ r.get ⟨j, hj⟩ < l.get ⟨i, hi⟩ := not_lt.mpr (le_of_lt h1)
        refine ⟨true, false, ?_, ?_, ?_⟩
        · simp only [lexLoop, rd, hx, hy, Option.some_bind, if_pos h1]
        · simp only [lexLoop, rd, hx, hy, Option.some_bind, if_neg h2, if_pos h1]
        · constructor
          · intro _
            exact Or.inl rfl
          · intro _
            rfl
      · by_cases h2 : r.get ⟨j, hj⟩ < l.get ⟨i, hi⟩
        · refine ⟨false, true, ?_, ?_, ?_⟩
          · simp only [lexLoop, rd, hx, hy, Option.some_bind, if_neg h1, if_pos h2]
          · simp only [lexLoop, rd, hx, hy, Option.some_bind, if_pos h2]
          · constructor
            · intro h
              cases h
            · rintro (h | ⟨_, h⟩)
              · cases h
              · exfalso
                have h0 := h 0 (by omega)
                rw [Nat.add_zero, Nat.add_zero, hx, hy] at h0
                rw [Option.some.inj h0] at h2
                exact lt_irrefl _ h2
        · have heq : l.get ⟨i, hi⟩ = r.get ⟨j, hj⟩ :=
            le_antisymm (not_lt.mp h2) (not_lt.mp h1)
          obtain ⟨x, y, hxr, hyr, hiff⟩ := ih (i + 1) (j + 1) n2 (by omega) (by omega)
          refine ⟨x, y, ?_, ?_, ?_⟩
          · simp only [lexLoop, rd, hx, hy, Option.some_bind, if_neg h1, if_neg h2, hxr]
          · simp only [lexLoop, rd, hx, hy, Option.some_bind, if_neg h1, if_neg h2, hyr]
          · rw [hiff]
            constructor
            · rintro (h | ⟨h3, h4⟩)
              · exact Or.inl h
              · refine Or.inr ⟨by omega, ?_⟩
                intro m hm
                cases m with
                | zero =>
                  show l[i]? = r[j]?
                  rw [hx, hy, heq]
                | succ m =>
                  have e1 : i + (m + 1) = i + 1 + m := by omega
                  have e2 : j + (m + 1) = j + 1 + m := by omega
                  rw [e1, e2]
                  exact h4 m (by omega)
            · rintro (h | ⟨h3, h4⟩)
              · exact Or.inl h
              · refine Or.inr ⟨by omega, ?_⟩
                intro m hm
                have e1 : i + 1 + m = i + (m + 1) := by omega
                have e2 : j + 1 + m = j + (m + 1) := by omega
                rw [e1, e2]
                exact h4 (m + 1) (by omega)

theorem index_ok_iff (a : SimpleVector T) (i : Nat) (x : T) :
    index a i = Access.ok x ↔ a.vec_[i]? = some x := by
  unfold index rd
  cases ha : a.vec_[i]? <;> simp

/-- For vectors of fewer than `2 ^ 31` elements the round trip holds: the
by-copy `Insert` at `p` followed by `Erase` at `p` gives a vector that compares
equal to the first one. -/
theorem Insert_Erase_within_int [DecidableEq T] (E : Elem T) (a : SimpleVector T) (p : Nat)
    (v : T) (hlen : a.vec_.length = a.capacity_) (hsz : a.size_ ≤ a.capacity_)
    (hp : p ≤ a.size_) (hint : a.size_ < 2 ^ 31) :
    ∃ b c, Insert E a p (ConstRef.outside v) = some (b, p) ∧ Erase E b p = some (c, p) ∧
      opEq c a = some true := by
  obtain ⟨b, hb, hs, hc, hl, hslots⟩ := Insert_slots E a p v hlen hsz hp
  have hg := grown_pos a.capacity_
  have hbl : b.size_ ≤ b.vec_.length := by
    rw [hl, hc, hs]
    split <;> omega
  obtain ⟨c, hce, hcs, _, hcl, hcslots, _⟩ :=
    Erase_slots E b p hbl (by omega) (by omega)
  have hsame : ∀ i, i < c.size_ → c.vec_[i]? = a.vec_[i]? := by
    intro i hi
    rw [hcslots i (by omega)]
    by_cases h1 : i < p
    · rw [if_pos h1, hslots i (by omega), if_pos h1]
    · rw [if_neg h1, hslots (i + 1) (by omega), if_neg (by omega), if_neg (by omega)]
      rfl
  obtain ⟨res, hres, hiff⟩ := opEq_spec c a (by omega) (by omega)
  have htrue : res = true := hiff.mpr ⟨by omega, hsame⟩
  rw [htrue] at hres
  exact ⟨b, c, hb, hce, hres⟩

/-- The state the copy constructor builds, slot by slot. -/
theorem ctorCopy_slots (E : Elem T) (a : SimpleVector T)
    (hsz : a.size_ ≤ a.capacity_) (hv : a.size_ ≤ a.vec_.length) :
    ∃ b, ctorCopy E a = some b ∧ b.size_ = a.size_ ∧ b.capacity_ = a.capacity_ ∧
      b.vec_.length = a.capacity_ ∧
      (∀ j, j < a.size_ → b.vec_[j]? = a.vec_[j]?) ∧
      (∀ j, a.size_ ≤ j → j < a.capacity_ → b.vec_[j]? = some E.dflt) := by
  obtain ⟨t1, ht1, hl1, hg1⟩ := std_copy_spec a.vec_ a.size_ (ArrayPtr.create E a.capacity_)
    hv (by rw [create_length]; omega)
  rw [create_length] at hl1
  obtain ⟨t2, ht2, hl2, hg2⟩ :=
    std_fill_spec t1 a.size_ a.capacity_ E.dflt hsz (by omega)
  refine ⟨⟨t2, a.size_, a.capacity_⟩, ?_, rfl, rfl, ?_, ?_, ?_⟩
  · simp [ctorCopy, GetSize, GetCapacity, ht1, ht2]
  · simp only [hl2, hl1]
  · intro j h3
    simp only [hg2 j, hg1 j]
    rw [if_neg (by omega), if_pos h3]
  · intro j h3 h4
    simp only [hg2 j]
    rw [if_pos ⟨h3, h4⟩]

/-- At `end()` the by-copy `Insert` runs the steps of `PushBack`: its
`std::copy_backward` has an empty range. -/
theorem Insert_at_end (E : Elem T) (a : SimpleVector T) (v : T)
    (hsz : a.size_ ≤ a.capacity_) :
    Insert E a a.size_ (ConstRef.outside v) = (PushBack E a v).map fun b => (b, a.size_) := by
  by_cases hc : a.size_ < a.capacity_
  · simp only [Insert, PushBack, if_pos hc, std_copy_backward, lt_irrefl, if_false,
      Nat.sub_self, copyBackwardLoop, Option.some_bind, ConstRef.read]
    cases wr a.vec_ a.size_ v <;> rfl
  · have hfull : a.capacity_ = a.size_ := by omega
    simp only [Insert, PushBack, if_neg hc, std_copy_backward, hfull, lt_irrefl, if_false,
      Nat.sub_self, copyBackwardLoop, ConstRef.read]
    cases std_copy a.vec_ 0 a.size_ (ArrayPtr.create E (grown a.size_)) 0 with
    | none => rfl
    | some t1 =>
      simp only [Option.some_bind]
      cases std_fill t1 a.size_ a.size_ E.dflt with
      | none => rfl
      | some t2 =>
        simp only [Option.some_bind]
        cases wr t2 a.size_ v <;> rfl

/-- While the counter stays positive the shifting loop of the by-move `Insert`
is the loop of `std::copy_backward` one slot to the right. -/
theorem insertShiftLoop_eq (n : Nat) : ∀ (i : Nat) (b : List T), n ≤ i →
    insertShiftLoop i n b = copyBackwardLoop i (i + 1) n b := by
  induction n with
  | zero =>
    intro i b _
    rfl
  | succ n ih =>
    intro i b hn
    have e : i - 1 + 1 = i := by omega
    simp only [insertShiftLoop, copyBackwardLoop, Nat.add_sub_cancel]
    cases rd b (i - 1) with
    | none => rfl
    | some x =>
      simp only [Option.some_bind]
      cases wr b i x with
      | none => rfl
      | some b1 =>
        simp only [Option.some_bind]
        rw [ih (i - 1) b1 (by omega), e]

theorem insertShiftLoop_spec (n : Nat) (i : Nat) (b : List T)
    (hn : n ≤ i) (hl : i + 1 ≤ b.length) :
    ∃ r, insertShiftLoop i n b = some r ∧ r.length = b.length ∧
      ∀ j, r[j]? = if i - n < j ∧ j ≤ i then b[j - 1]? else b[j]? := by
  rw [insertShiftLoop_eq n i b hn]
  exact copyBackwardLoop_spec n i b hn hl

/-- The first step of the shifting loop writes slot `i`: with `i` at or past the
end of the block the loop leaves the block. -/
theorem insertShiftLoop_overrun (n : Nat) (i : Nat) (b : List T) (hi : b.length ≤ i) :
    insertShiftLoop i (n + 1) b = none := by
  have hw : ∀ x, wr b i x = none := by
    intro x
    simp only [wr, if_neg (Nat.not_lt.mpr hi)]
  simp only [insertShiftLoop]
  cases rd b (i - 1) with
  | none => rfl
  | some x => simp only [Option.some_bind, hw x, Option.none_bind]

/-- With exactly one free slot the by-move `Insert` writes `vec_[size_ + 1]`,
which is `vec_[capacity_]`, outside the block. -/
theorem InsertMove_one_free_slot (E : Elem T) (a : SimpleVector T) (p : Nat) (v : T)
    (hlen : a.vec_.length = a.capacity_) (hfree : a.size_ + 1 = a.capacity_)
    (hp : p ≤ a.size_) (hint : a.size_ + 1 < 2 ^ 31) :
    InsertMove E a p v = none := by
  have hc : a.size_ < a.capacity_ := by omega
  have hcast : toInt32 (a.size_ + 1) = ((a.size_ + 1 : Nat) : Int) := toInt32_small _ hint
  obtain ⟨k, hk⟩ : ∃ k, (((a.size_ + 1 : Nat) : Int) - (p : Int)).toNat = k + 1 :=
    ⟨a.size_ - p, by omega⟩
  simp only [InsertMove, if_pos hc, hcast, Int.toNat_ofNat, hk,
    insertShiftLoop_overrun k (a.size_ + 1) a.vec_ (by omega), Option.none_bind]

/-- The state after the by-move `Insert` where its shifting loop stays inside
the block (two free slots, or a full block of at least two slots) and the
counters fit `int`: slot by slot as after the by-copy `Insert`. -/
theorem InsertMove_slots (E : Elem T) (a : SimpleVector T) (p : Nat) (v : T)
    (hlen : a.vec_.length = a.capacity_) (hsz : a.size_ ≤ a.capacity_) (hp : p ≤ a.size_)
    (hroom : a.size_ + 2 ≤ a.capacity_ ∨ (a.size_ = a.capacity_ ∧ 2 ≤ a.capacity_))
    (hint : a.capacity_ + 1 < 2 ^ 31) :
    ∃ b, InsertMove E a p v = some (b, p) ∧ b.size_ = a.size_ + 1 ∧
      b.capacity_ = (if a.size_ < a.capacity_ then a.capacity_ else grown a.capacity_) ∧
      b.vec_.length = b.capacity_ ∧
      ∀ j, j ≤ a.size_ → b.vec_[j]? =
        if j < p then a.vec_[j]? else if j = p then some v else a.vec_[j - 1]? := by
  by_cases hc : a.size_ < a.capacity_
  · have hcast : toInt32 (a.size_ + 1) = ((a.size_ + 1 : Nat) : Int) :=
      toInt32_small _ (by omega)
    have hcount : (((a.size_ + 1 : Nat) : Int) - (p : Int)).toNat = a.size_ + 1 - p := by omega
    obtain ⟨v1, hv1, hl1, hg1⟩ :=
      insertShiftLoop_spec (a.size_ + 1 - p) (a.size_ + 1) a.vec_ (by omega) (by omega)
    have hi : p < v1.length := by omega
    refine ⟨⟨v1.set p v, a.size_ + 1, a.capacity_⟩, ?_, rfl, ?_, ?_, ?_⟩
    · simp only [InsertMove, if_pos hc, hcast, Int.toNat_ofNat, hcount, hv1,
        Option.some_bind, wr_of_lt v1 p v hi]
    · simp [hc]
    · simp; omega
    · intro j hj
      simp only [List.getElem?_set, hg1 j]
      by_cases h1 : j < p
      · rw [if_neg (by omega), if_neg (by omega), if_pos h1]
      · by_cases h2 : j = p
        · subst h2
          rw [if_pos rfl, if_pos hi, if_neg h1, if_pos rfl]
        · rw [if_neg (by omega), if_pos (by omega), if_neg h1, if_neg h2]
  · have hg : grown a.capacity_ = 2 * a.capacity_ := by
      unfold grown
      rw [if_pos (by omega)]
    have hfull : a.size_ = a.capacity_ := by omega
    obtain ⟨t1, ht1, hl1, hg1⟩ := copyLoop_spec a.vec_ a.size_ 0 0
      (ArrayPtr.create E (grown a.capacity_)) (by omega) (by rw [create_length]; omega)
    rw [create_length] at hl1
    have hcast : toInt32 (a.capacity_ + 1) = ((a.capacity_ + 1 : Nat) : Int) :=
      toInt32_small _ hint
    have hcount : (((a.capacity_ + 1 : Nat) : Int) - (p : Int)).toNat = a.capacity_ + 1 - p := by
      omega
    obtain ⟨t3, ht3, hl3, hg3⟩ :=
      insertShiftLoop_spec (a.capacity_ + 1 - p) (a.capacity_ + 1) t1 (by omega) (by omega)
    have hi : p < t3.length := by omega
    have hzero : a.capacity_ - a.size_ = 0 := by omega
    refine ⟨⟨t3.set p v, a.size_ + 1, grown a.capacity_⟩, ?_, rfl, ?_, ?_, ?_⟩
    · simp only [InsertMove, if_neg hc, ht1, Option.some_bind, hzero, fillLoop, hcast,
        Int.toNat_ofNat, hcount, ht3, wr_of_lt t3 p v hi]
    · simp [hc]
    · simp; omega
    · intro j hj
      simp only [List.getElem?_set, hg3 j, hg1]
      by_cases h1 : j < p
      · rw [if_neg (by omega), if_neg (by omega), if_pos (by omega), if_pos h1]
        simp
      · by_cases h2 : j = p
        · subst h2
          rw [if_pos rfl, if_pos hi, if_neg h1, if_pos rfl]
        · rw [if_neg (by omega), if_pos (by omega), if_pos (by omega), if_neg h1, if_neg h2]
          simp

/-- Where the by-move `Insert` stays inside its blocks it agrees with the
by-copy `Insert` on size, capacity, live elements and returned position. -/
theorem InsertMove_like_Insert (E : Elem T) (a : SimpleVector T) (p : Nat) (v : T)
    (hlen : a.vec_.length = a.capacity_) (hsz : a.size_ ≤ a.capacity_) (hp : p ≤ a.size_)
    (hroom : a.size_ + 2 ≤ a.capacity_ ∨ (a.size_ = a.capacity_ ∧ 2 ≤ a.capacity_))
    (hint : a.capacity_ + 1 < 2 ^ 31) :
    ∃ b c, InsertMove E a p v = some (b, p) ∧ Insert E a p (ConstRef.outside v) = some (c, p) ∧
      b.GetSize = c.GetSize ∧ b.GetCapacity = c.GetCapacity ∧ live b = live c := by
  obtain ⟨b, hb, hbs, hbc, _, hbslots⟩ := InsertMove_slots E a p v hlen hsz hp hroom hint
  obtain ⟨c, hc, hcs, hcc, _, hcslots⟩ := Insert_slots E a p v hlen hsz hp
  refine ⟨b, c, hb, hc, ?_, ?_, ?_⟩
  · simp only [GetSize, hbs, hcs]
  · simp only [GetCapacity, hbc, hcc]
  · rw [live_of_insert_slots a b p v (by omega) hp hbs hbslots,
      live_of_insert_slots a c p v (by omega) hp hcs hcslots]

/-- Inside the class invariant the by-move `PushBack` is the by-copy one. -/
theorem PushBackMove_eq (E : Elem T) (a : SimpleVector T) (v : T)
    (hsz : a.size_ ≤ a.capacity_) : PushBackMove E a v = PushBack E a v := by
  by_cases hc : a.size_ < a.capacity_
  · simp only [PushBackMove, PushBack, if_pos hc]
  · have h1 : ¬ a.capacity_ < a.size_ := by omega
    simp only [PushBackMove, PushBack, if_neg hc, std_copy, std_fill, Nat.not_lt_zero,
      if_false, Nat.sub_zero, if_neg h1]

/-! ### The counters after each operation that returns -/

theorem PushBack_counters (E : Elem T) (a b : SimpleVector T) (v : T)
    (h : PushBack E a v = some b) :
    b.size_ = a.size_ + 1 ∧
      b.capacity_ = (if a.size_ < a.capacity_ then a.capacity_ else grown a.capacity_) := by
  by_cases hc : a.size_ < a.capacity_
  · simp only [PushBack, if_pos hc] at h
    obtain ⟨v1, _, h1⟩ := Option.bind_eq_some.mp h
    cases h1
    exact ⟨rfl, by rw [if_pos hc]⟩
  · simp only [PushBack, if_neg hc] at h
    obtain ⟨t1, _, h1⟩ := Option.bind_eq_some.mp h
    obtain ⟨t2, _, h2⟩ := Option.bind_eq_some.mp h1
    obtain ⟨t3, _, h3⟩ := Option.bind_eq_some.mp h2
    cases h3
    exact ⟨rfl, by rw [if_neg hc]⟩

theorem PushBackMove_counters (E : Elem T) (a b : SimpleVector T) (v : T)
    (h : PushBackMove E a v = some b) :
    b.size_ = a.size_ + 1 ∧
      b.capacity_ = (if a.size_ < a.capacity_ then a.capacity_ else grown a.capacity_) := by
  by_cases hc : a.size_ < a.capacity_
  · simp only [PushBackMove, if_pos hc] at h
    obtain ⟨v1, _, h1⟩ := Option.bind_eq_some.mp h
    cases h1
    exact ⟨rfl, by rw [if_pos hc]⟩
  · simp only [PushBackMove, if_neg hc] at h
    obtain ⟨t1, _, h1⟩ := Option.bind_eq_some.mp h
    obtain ⟨t2, _, h2⟩ := Option.bind_eq_some.mp h1
    obtain ⟨t3, _, h3⟩ := Option.bind_eq_some.mp h2
    cases h3
    exact ⟨rfl, by rw [if_neg hc]⟩

theorem Insert_counters (E : Elem T) (a b : SimpleVector T) (p q : Nat) (r : ConstRef T)
    (h : Insert E a p r = some (b, q)) :
    b.size_ = a.size_ + 1 ∧
      b.capacity_ = (if a.size_ < a.capacity_ then a.capacity_ else grown a.capacity_) := by
  by_cases hc : a.size_ < a.capacity_
  · simp only [Insert, if_pos hc] at h
    obtain ⟨v1, _, h1⟩ := Option.bind_eq_some.mp h
    obtain ⟨x, _, h2⟩ := Option.bind_eq_some.mp h1
    obtain ⟨v2, _, h3⟩ := Option.bind_eq_some.mp h2
    cases h3
    exact ⟨rfl, by rw [if_pos hc]⟩
  · simp only [Insert, if_neg hc] at h
    obtain ⟨t1, _, h1⟩ := Option.bind_eq_some.mp h
    obtain ⟨t2, _, h2⟩ := Option.bind_eq_some.mp h1
    obtain ⟨t3, _, h3⟩ := Option.bind_eq_some.mp h2
    obtain ⟨x, _, h4⟩ := Option.bind_eq_some.mp h3
    obtain ⟨t4, _, h5⟩ := Option.bind_eq_some.mp h4
    cases h5
    exact ⟨rfl, by rw [if_neg hc]⟩

theorem InsertMove_counters (E : Elem T) (a b : SimpleVector T) (p q : Nat) (v : T)
    (h : InsertMove E a p v = some (b, q)) :
    b.size_ = a.size_ + 1 ∧
      b.capacity_ = (if a.size_ < a.capacity_ then a.capacity_ else grown a.capacity_) := by
  by_cases hc : a.size_ < a.capacity_
  · simp only [InsertMove, if_pos hc] at h
    obtain ⟨v1, _, h1⟩ := Option.bind_eq_some.mp h
    obtain ⟨v2, _, h2⟩ := Option.bind_eq_some.mp h1
    cases h2
    exact ⟨rfl, by rw [if_pos hc]⟩
  · simp only [InsertMove, if_neg hc] at h
    obtain ⟨t1, _, h1⟩ := Option.bind_eq_some.mp h
    obtain ⟨t2, _, h2⟩ := Option.bind_eq_some.mp h1
    obtain ⟨t3, _, h3⟩ := Option.bind_eq_some.mp h2
    obtain ⟨t4, _, h4⟩ := Option.bind_eq_some.mp h3
    cases h4
    exact ⟨rfl, by rw [if_neg hc]⟩

theorem Resize_counters (E : Elem T) (a b : SimpleVector T) (n : Nat)
    (h : Resize E a n = some b) :
    b.size_ = n ∧ (b.capacity_ = a.capacity_ ∧ n ≤ max a.size_ a.capacity_ ∨ b.capacity_ = n) := by
  by_cases h1 : n ≤ a.size_
  · simp only [Resize, if_pos h1] at h
    cases h
    exact ⟨rfl, Or.inl ⟨rfl, by omega⟩⟩
  · by_cases h2 : n ≤ a.capacity_
    · simp only [Resize, if_neg h1, if_pos h2] at h
      obtain ⟨v1, _, h3⟩ := Option.bind_eq_some.mp h
      cases h3
      exact ⟨rfl, Or.inl ⟨rfl, by omega⟩⟩
    · simp only [Resize, if_neg h1, if_neg h2] at h
      obtain ⟨t1, _, h3⟩ := Option.bind_eq_some.mp h
      obtain ⟨t2, _, h4⟩ := Option.bind_eq_some.mp h3
      cases h4
      exact ⟨rfl, Or.inr rfl⟩

theorem Reserve_counters (E : Elem T) (a b : SimpleVector T) (n : Nat)
    (h : Reserve E a n = some b) :
    b.size_ = a.size_ ∧ a.capacity_ ≤ b.capacity_ := by
  by_cases h1 : a.capacity_ < n
  · simp only [Reserve, if_pos h1] at h
    obtain ⟨t1, _, h3⟩ := Option.bind_eq_some.mp h
    obtain ⟨t2, _, h4⟩ := Option.bind_eq_some.mp h3
    cases h4
    exact ⟨rfl, by show a.capacity_ ≤ n; omega⟩
  · simp only [Reserve, if_neg h1] at h
    cases h
    exact ⟨rfl, le_refl _⟩

theorem Erase_counters (E : Elem T) (a b : SimpleVector T) (p q : Nat)
    (h : Erase E a p = some (b, q)) :
    b.size_ = pred_size_t a.size_ ∧ b.capacity_ = a.capacity_ := by
  by_cases h1 : p = a.size_
  · simp only [Erase, if_pos h1] at h
    cases h
    exact ⟨rfl, rfl⟩
  · simp only [Erase, if_neg h1] at h
    obtain ⟨t1, _, h2⟩ := Option.bind_eq_some.mp h
    obtain ⟨t2, _, h3⟩ := Option.bind_eq_some.mp h2
    obtain ⟨t3, _, h4⟩ := Option.bind_eq_some.mp h3
    cases h4
    exact ⟨rfl, rfl⟩

theorem ctorCopy_counters (E : Elem T) (a b : SimpleVector T) (h : ctorCopy E a = some b) :
    b.size_ = a.size_ ∧ b.capacity_ = a.capacity_ := by
  simp only [ctorCopy] at h
  obtain ⟨t1, _, h1⟩ := Option.bind_eq_some.mp h
  obtain ⟨t2, _, h2⟩ := Option.bind_eq_some.mp h1
  cases h2
  exact ⟨rfl, rfl⟩

/-- The helper `SimpleVectorInit` returns on a block of `size` slots, with both
counters equal to `size`. -/
theorem SimpleVectorInit_returns (vec_ : List T) (n : Nat) (w : T) (hl : vec_.length = n) :
    ∃ b, SimpleVectorInit vec_ n w = some b ∧ b.size_ = n ∧ b.capacity_ = n := by
  by_cases hn : n > 0
  · obtain ⟨r, hr, _, _⟩ := std_fill_spec vec_ 0 n w (by omega) (by omega)
    exact ⟨⟨r, n, n⟩, by simp only [SimpleVectorInit, if_pos hn, hr, Option.some_bind], rfl, rfl⟩
  · exact ⟨⟨vec_, n, n⟩, by simp only [SimpleVectorInit, if_neg hn], rfl, rfl⟩

theorem ctorInit_returns (E : Elem T) (init : List T) :
    ∃ b, ctorInit E init = some b ∧ b.size_ = init.length ∧ b.capacity_ = init.length := by
  by_cases hn : init.length > 0
  · obtain ⟨r, hr, _, _⟩ := std_copy_spec init init.length
      (ArrayPtr.create E init.length) (le_refl _) (by rw [create_length])
    exact ⟨⟨r, init.length, init.length⟩,
      by simp only [ctorInit, if_pos hn, hr, Option.some_bind], rfl, rfl⟩
  · exact ⟨⟨ArrayPtr.create E init.length, init.length, init.length⟩,
      by simp only [ctorInit, if_neg hn], rfl, rfl⟩

theorem ctorReserve_returns (E : Elem T) (obj : ReserveProxyObj) :
    ctorReserve E obj = some ⟨[], 0, obj.GetCapacity⟩ := by
  by_cases hn : obj.GetCapacity > 0
  · simp [ctorReserve, hn, std_fill, fillLoop]
  · simp [ctorReserve, hn]

/-- Reading a reference to slot `k` after the in-place shift gives what an
object outside the block with the value found there gives. -/
theorem Insert_slot_in_place (E : Elem T) (a : SimpleVector T) (p k : Nat) (y : T)
    (hc : a.size_ < a.capacity_) (hp : p ≤ a.size_) (hl : a.size_ + 1 ≤ a.vec_.length)
    (hy : (if p < k ∧ k ≤ a.size_ then a.vec_[k - 1]? else a.vec_[k]?) = some y) :
    Insert E a p (ConstRef.slot k) = Insert E a p (ConstRef.outside y) := by
  obtain ⟨v1, hv1, _, hg1⟩ := std_copy_backward_spec a.vec_ p a.size_ hp hl
  have hk : v1[k]? = some y := by
    rw [hg1 k]
    exact hy
  simp only [Insert, if_pos hc, hv1, Option.some_bind, ConstRef.read, rd, hk]

/-- In the growing branch a reference to slot `k` is read from the old block,
which still holds what it held at the call. -/
theorem Insert_slot_growing (E : Elem T) (a : SimpleVector T) (p k : Nat) (y : T)
    (hc : ¬ a.size_ < a.capacity_) (hy : a.vec_[k]? = some y) :
    Insert E a p (ConstRef.slot k) = Insert E a p (ConstRef.outside y) := by
  simp only [Insert, if_neg hc, ConstRef.read, rd, hy]

/-- What the by-copy `Insert` does for every argument that is not a reference
to a slot that the in-place shift overwrites: with `v` the value the reference
names at the call, it returns position `p`, makes the size one larger, leaves
as live elements `a[0..p)`, then `v`, then `a[p..size)`, and keeps the capacity
when there was room and otherwise makes it 1 (old capacity 0) or twice the old
capacity. -/
theorem Insert_contract (E : Elem T) (a : SimpleVector T) (p : Nat) (r : ConstRef T) (v : T)
    (hlen : a.vec_.length = a.capacity_) (hsz : a.size_ ≤ a.capacity_) (hp : p ≤ a.size_)
    (hv : r.read a.vec_ = some v)
    (hsafe : ∀ k, r = ConstRef.slot k → a.size_ < a.capacity_ → ¬ (p < k ∧ k ≤ a.size_)) :
    ∃ b, Insert E a p r = some (b, p) ∧
      b.GetSize = a.GetSize + 1 ∧
      live b = (live a).take p ++ v :: (live a).drop p ∧
      index b p = Access.ok v ∧
      b.GetCapacity = (if a.GetSize < a.GetCapacity then a.GetCapacity
        else if a.GetCapacity = 0 then 1 else 2 * a.GetCapacity) := by
  have hr : Insert E a p r = Insert E a p (ConstRef.outside v) := by
    cases r with
    | outside w =>
      have hw : w = v := Option.some.inj hv
      rw [hw]
    | slot k =>
      have hk : a.vec_[k]? = some v := hv
      by_cases hc : a.size_ < a.capacity_
      · apply Insert_slot_in_place E a p k v hc hp (by omega)
        rw [if_neg (hsafe k rfl hc)]
        exact hk
      · exact Insert_slot_growing E a p k v hc hk
  obtain ⟨b, hb, hs, hc, _, hslots⟩ := Insert_slots E a p v hlen hsz hp
  refine ⟨b, by rw [hr, hb], hs, ?_, ?_, ?_⟩
  · exact live_of_insert_slots a b p v (by omega) hp hs hslots
  · have h := hslots p hp
    rw [if_neg (by omega), if_pos rfl] at h
    simp [index, rd, h]
  · simp only [GetCapacity, GetSize, hc, grown]
    by_cases h : a.capacity_ = 0 <;> simp [h]

/-- A run of `Insert_contract`: insertion at index 1 of a full vector. -/
theorem Insert_contract_witness :
    ([1, 2, 3] : List Nat).length = 3 ∧ 3 ≤ 3 ∧ 1 ≤ 3 ∧
    ∃ b, Insert ⟨0, fun _ => 7⟩ (⟨[1, 2, 3], 3, 3⟩ : SimpleVector Nat) 1 (ConstRef.outside 9) =
        some (b, 1) ∧
      b.GetSize = 3 + 1 ∧
      live b = (live (⟨[1, 2, 3], 3, 3⟩ : SimpleVector Nat)).take 1 ++
        9 :: (live (⟨[1, 2, 3], 3, 3⟩ : SimpleVector Nat)).drop 1 ∧
      index b 1 = Access.ok 9 ∧
      b.GetCapacity = (if 3 < 3 then 3 else if 3 = 0 then 1 else 2 * 3) :=
  ⟨rfl, le_refl 3, by decide,
    Insert_contract ⟨0, fun _ => 7⟩ (⟨[1, 2, 3], 3, 3⟩ : SimpleVector Nat) 1
      (ConstRef.outside 9) 9 rfl (le_refl 3) (by decide) rfl
      (fun k hk => ConstRef.noConfusion hk)⟩

/-- What the by-copy `Insert` does in place for a reference to a slot `k` with
`p < k ≤ size`: it inserts the old element of index `k - 1`, not the element
the reference named at the call. -/
theorem Insert_aliased_in_place (E : Elem T) (a : SimpleVector T) (p k : Nat)
    (hlen : a.vec_.length = a.capacity_) (hc : a.size_ < a.capacity_) (hp : p < k)
    (hk : k ≤ a.size_) :
    ∃ b y, a.vec_[k - 1]? = some y ∧ Insert E a p (ConstRef.slot k) = some (b, p) ∧
      b.GetSize = a.GetSize + 1 ∧
      live b = (live a).take p ++ y :: (live a).drop p := by
  have hlt : k - 1 < a.vec_.length := by omega
  have hy : a.vec_[k - 1]? = some (a.vec_.get ⟨k - 1, hlt⟩) := List.getElem?_eq_getElem hlt
  have hr := Insert_slot_in_place E a p k (a.vec_.get ⟨k - 1, hlt⟩) hc (by omega) (by omega)
    (by rw [if_pos ⟨hp, hk⟩]; exact hy)
  obtain ⟨b, hb, hs, _, _, hslots⟩ :=
    Insert_slots E a p (a.vec_.get ⟨k - 1, hlt⟩) hlen (by omega) (by omega)
  exact ⟨b, _, hy, by rw [hr, hb], hs,
    live_of_insert_slots a b p _ (by omega) (by omega) hs hslots⟩

/-- The by-copy `Insert` returns for every argument that can be read at the
call, a reference to a slot of the vector included. -/
theorem Insert_any_reference (E : Elem T) (a : SimpleVector T) (p : Nat) (r : ConstRef T)
    (hlen : a.vec_.length = a.capacity_) (hsz : a.size_ ≤ a.capacity_) (hp : p ≤ a.size_)
    (hread : ∃ y, r.read a.vec_ = some y) :
    ∃ b, Insert E a p r = some (b, p) := by
  obtain ⟨y, hy⟩ := hread
  cases r with
  | outside w =>
    obtain ⟨b, hb, _⟩ := Insert_slots E a p w hlen hsz hp
    exact ⟨b, hb⟩
  | slot k =>
    have hk : a.vec_[k]? = some y := hy
    by_cases hc : a.size_ < a.capacity_
    · by_cases hcond : p < k ∧ k ≤ a.size_
      · have hlt : k - 1 < a.vec_.length := by omega
        have hr := Insert_slot_in_place E a p k (a.vec_.get ⟨k - 1, hlt⟩) hc hp (by omega)
          (by rw [if_pos hcond]; exact List.getElem?_eq_getElem hlt)
        obtain ⟨b, hb, _⟩ := Insert_slots E a p (a.vec_.get ⟨k - 1, hlt⟩) hlen hsz hp
        exact ⟨b, by rw [hr, hb]⟩
      · have hr := Insert_slot_in_place E a p k y hc hp (by omega)
          (by rw [if_neg hcond]; exact hk)
        obtain ⟨b, hb, _⟩ := Insert_slots E a p y hlen hsz hp
        exact ⟨b, by rw [hr, hb]⟩
    · have hr := Insert_slot_growing E a p k y hc hk
      obtain ⟨b, hb, _⟩ := Insert_slots E a p y hlen hsz hp
      exact ⟨b, by rw [hr, hb]⟩

/-- At `end()` no slot that a reference can name is overwritten before the
reference is read: the by-copy `Insert` inserts the value the reference names
at the call. -/
theorem Insert_at_end_any_reference (E : Elem T) (a : SimpleVector T) (r : ConstRef T)
    (v : T) (hlen : a.vec_.length = a.capacity_) (hv : r.read a.vec_ = some v) :
    Insert E a a.size_ r = Insert E a a.size_ (ConstRef.outside v) := by
  cases r with
  | outside w =>
    have hw : w = v := Option.some.inj hv
    rw [hw]
  | slot k =>
    have hk : a.vec_[k]? = some v := hv
    by_cases hc : a.size_ < a.capacity_
    · apply Insert_slot_in_place E a a.size_ k v hc (le_refl _) (by omega)
      rw [if_neg (by omega)]
      exact hk
    · exact Insert_slot_growing E a a.size_ k v hc hk

/-! ## The claims -/

/-- C1: on a vector whose block has exactly `capacity_` slots and whose size is
at most its capacity, `PushBack(const Type&)` returns, raises the size by one,
stores the item at index old size, leaves the elements below the old size as
they were and in their order, keeps the capacity when there was room and
otherwise makes it 1 (old capacity 0) or twice the old capacity. -/
theorem PushBack_contract (E : Elem T) (a : SimpleVector T) (v : T)
    (hlen : a.vec_.length = a.capacity_) (hsz : a.size_ ≤ a.capacity_) :
    ∃ b, PushBack E a v = some b ∧
      b.GetSize = a.GetSize + 1 ∧
      index b a.GetSize = Access.ok v ∧
      (∀ i, i < a.GetSize → index b i = index a i) ∧
      live b = live a ++ [v] ∧
      b.GetCapacity = (if a.GetSize < a.GetCapacity then a.GetCapacity
        else if a.GetCapacity = 0 then 1 else 2 * a.GetCapacity) := by
  obtain ⟨b, hb, hs, hc, hl, hold, hnew⟩ := PushBack_slots E a v hlen hsz
  refine ⟨b, hb, hs, ?_, ?_, ?_, ?_⟩
  · simp [index, rd, GetSize, hnew]
  · intro i hi
    simp only [index, rd, hold i hi]
  · apply List.ext_getElem?
    intro j
    rw [live_getElem?, List.getElem?_append, live_length a (by omega), live_getElem?, hs]
    by_cases h1 : j < a.size_
    · have : j < a.size_ + 1 := by omega
      simp [h1, this, hold j h1]
    · by_cases h2 : j = a.size_
      · subst h2
        simp [hnew]
      · have h3 : ¬ j < a.size_ + 1 := by omega
        have h4 : j - a.size_ ≠ 0 := by omega
        simp [h1, h3]
        cases h5 : j - a.size_ with
        | zero => omega
        | succ k => simp
  · simp only [GetCapacity, GetSize, hc, grown]
    by_cases h : a.capacity_ = 0 <;> simp [h]

/-- A run of `PushBack_contract`: a full vector of two elements. -/
theorem PushBack_contract_witness :
    ([1, 2] : List Nat).length = 2 ∧ 2 ≤ 2 ∧
    ∃ b, PushBack ⟨0, fun _ => 7⟩ (⟨[1, 2], 2, 2⟩ : SimpleVector Nat) 3 = some b ∧
      b.GetSize = 2 + 1 ∧
      index b 2 = Access.ok 3 ∧
      (∀ i, i < 2 → index b i = index (⟨[1, 2], 2, 2⟩ : SimpleVector Nat) i) ∧
      live b = live (⟨[1, 2], 2, 2⟩ : SimpleVector Nat) ++ [3] ∧
      b.GetCapacity = (if 2 < 2 then 2 else if 2 = 0 then 1 else 2 * 2) :=
  ⟨rfl, le_refl 2,
    PushBack_contract ⟨0, fun _ => 7⟩ (⟨[1, 2], 2, 2⟩ : SimpleVector Nat) 3 rfl (le_refl 2)⟩

/-- C2: `v.Insert(v.begin(), v[2])` on the vector `[1, 2, 3]` with capacity 4.
The argument is a `const Type&` that names slot 2, whose value is 3.  In place
the code shifts the block first and reads the reference afterwards, when slot 2
holds the old element of index 1: the result is `[2, 1, 2, 3]`, where the
insertion of the value 3 (as the same call with an object outside the block
gives it) is `[3, 1, 2, 3]`. -/
theorem Insert_reads_shifted_slot :
    index (⟨[1, 2, 3, 0], 3, 4⟩ : SimpleVector Nat) 2 = Access.ok 3 ∧
    Insert zeroElem (⟨[1, 2, 3, 0], 3, 4⟩ : SimpleVector Nat) 0 (ConstRef.slot 2) =
      some (⟨[2, 1, 2, 3], 4, 4⟩, 0) ∧
    Insert zeroElem (⟨[1, 2, 3, 0], 3, 4⟩ : SimpleVector Nat) 0 (ConstRef.outside 3) =
      some (⟨[3, 1, 2, 3], 4, 4⟩, 0) := by
  refine ⟨?_, ?_, ?_⟩ <;> decide

/-- C3: `Erase(begin())` on a vector of `2 ^ 31 + 1` elements equal to 1.  The
counter of the shifting loop starts at `static_cast<int>(size_ - 1)`, which is
`-2 ^ 31` here, so no element is shifted: the call returns position 0 and size
`2 ^ 31`, but the element at index 0 is the content of a new slot (0) and not
the old element of index 1 (1). -/
theorem Erase_long_vector :
    ∃ b, Erase zeroElem longVector 0 = some (b, 0) ∧
      b.GetSize = 2 ^ 31 ∧
      index longVector 1 = Access.ok 1 ∧
      index b 0 = Access.ok 0 := by
  have hw : toInt32 (longVector.size_ - 1) ≤ 0 := by
    show toInt32 (2 ^ 31 + 1 - 1) ≤ 0
    decide
  have h0 : 0 < longVector.size_ := by
    show 0 < 2 ^ 31 + 1
    omega
  have h1 : 0 < longVector.size_ - 1 := by
    show 0 < 2 ^ 31 + 1 - 1
    omega
  obtain ⟨b, hb, hs, _, _, hfresh⟩ := Erase_first_of_wrapped zeroElem longVector h0 hw
  exact ⟨b, hb, hs,
    index_of_getElem? longVector 1 1 (List.getElem?_replicate_of_lt (by omega)),
    index_of_getElem? b 0 0 (hfresh 0 h1)⟩

/-- C4: `Insert(begin(), 5)` and then `Erase(begin())` on a full vector of
`2 ^ 31` elements equal to 1.  The insertion gives `2 ^ 31 + 1` elements; in
`Erase` the counter `static_cast<int>(size_ - 1)` is then `-2 ^ 31`, no element
is shifted, and the result does not compare equal to the vector the round trip
started from. -/
theorem Insert_Erase_long_vector :
    ∃ b c, Insert zeroElem fullVector 0 (ConstRef.outside 5) = some (b, 0) ∧
      Erase zeroElem b 0 = some (c, 0) ∧
      c.GetSize = fullVector.GetSize ∧
      opEq c fullVector = some false := by
  have hlen : fullVector.vec_.length = fullVector.capacity_ := List.length_replicate _ _
  obtain ⟨b, hb, hs, _, _, _⟩ :=
    Insert_slots zeroElem fullVector 0 5 hlen (le_refl _) (Nat.zero_le _)
  have hs1 : b.size_ = 2 ^ 31 + 1 := hs
  have h0 : 0 < b.size_ := by omega
  have hw : toInt32 (b.size_ - 1) ≤ 0 := by
    rw [hs1]
    decide
  obtain ⟨c, hc, hcs, _, _, hfresh⟩ := Erase_first_of_wrapped zeroElem b h0 hw
  have hcs1 : c.size_ = fullVector.size_ := by
    rw [hcs, hs1]
    rfl
  have hf : (2 : Nat) ^ 31 = fullVector.size_ := rfl
  refine ⟨b, c, hb, hc, hcs1, ?_⟩
  exact opEq_of_first_ne c fullVector 0 1 hcs1 (by omega) (hfresh 0 (by omega))
    (List.getElem?_replicate_of_lt (by omega)) (by decide)

/-- C5: on a vector whose block has exactly `capacity_` slots (and whose size
is at most its capacity), `Resize(n)` returns with size `n`, the elements below
`min(old size, n)` as they were, every element of `[old size, n)` equal to
`Type()`, and the capacity unchanged when `n` is at most the old capacity and
equal to `n` otherwise. -/
theorem Resize_contract (E : Elem T) (a : SimpleVector T) (n : Nat)
    (hlen : a.vec_.length = a.capacity_) (hsz : a.size_ ≤ a.capacity_) :
    ∃ b, Resize E a n = some b ∧
      b.GetSize = n ∧
      (∀ i, i < min a.GetSize n → index b i = index a i) ∧
      (∀ i, a.GetSize ≤ i → i < n → index b i = Access.ok E.dflt) ∧
      (n ≤ a.GetCapacity → b.GetCapacity = a.GetCapacity) ∧
      (a.GetCapacity < n → b.GetCapacity = n) := by
  obtain ⟨b, hb, hs, hc, _, hold, hnew⟩ := Resize_slots E a n hlen hsz
  refine ⟨b, hb, hs, ?_, ?_, ?_, ?_⟩
  · intro i hi
    simp only [GetSize] at hi
    exact index_congr a b i (hold i (by omega) (by omega))
  · intro i h1 h2
    exact index_of_getElem? b i E.dflt (hnew i h1 h2)
  · intro h
    simp only [GetCapacity] at h ⊢
    rw [hc, if_pos h]
  · intro h
    simp only [GetCapacity] at h ⊢
    rw [hc, if_neg (by omega)]

/-- A run of `Resize_contract`: growth past the capacity. -/
theorem Resize_contract_witness :
    ([1, 9] : List Nat).length = 2 ∧ 2 ≤ 2 ∧
    ∃ b, Resize ⟨0, fun _ => 7⟩ (⟨[1, 9], 2, 2⟩ : SimpleVector Nat) 4 = some b ∧
      b.GetSize = 4 ∧
      (∀ i, i < min (⟨[1, 9], 2, 2⟩ : SimpleVector Nat).GetSize 4 →
        index b i = index (⟨[1, 9], 2, 2⟩ : SimpleVector Nat) i) ∧
      (∀ i, (⟨[1, 9], 2, 2⟩ : SimpleVector Nat).GetSize ≤ i → i < 4 →
        index b i = Access.ok 0) ∧
      (4 ≤ (⟨[1, 9], 2, 2⟩ : SimpleVector Nat).GetCapacity →
        b.GetCapacity = (⟨[1, 9], 2, 2⟩ : SimpleVector Nat).GetCapacity) ∧
      ((⟨[1, 9], 2, 2⟩ : SimpleVector Nat).GetCapacity < 4 → b.GetCapacity = 4) :=
  ⟨rfl, le_refl 2,
    Resize_contract ⟨0, fun _ => 7⟩ (⟨[1, 9], 2, 2⟩ : SimpleVector Nat) 4 rfl (le_refl 2)⟩

/-- C6: on a vector whose size is at most its capacity and whose live elements
lie in its block, `Reserve(n)` returns and leaves the size and all live
elements as they were; for `n` above the old capacity the capacity becomes `n`
and the block has `n` slots; for `n` at most the old capacity the vector is
unchanged; `Reserve(10)` on the empty vector gives size 0 and capacity 10. -/
theorem Reserve_contract (E : Elem T) (a : SimpleVector T) (n : Nat)
    (hsz : a.size_ ≤ a.capacity_) (hv : a.size_ ≤ a.vec_.length) :
    (∃ b, Reserve E a n = some b ∧
      b.GetSize = a.GetSize ∧
      (∀ i, i < a.GetSize → index b i = index a i) ∧
      live b = live a ∧
      (a.GetCapacity < n → b.GetCapacity = n ∧ b.vec_.length = n) ∧
      (n ≤ a.GetCapacity → b = a)) ∧
    (∃ c, Reserve E (empty : SimpleVector T) 10 = some c ∧ c.GetSize = 0 ∧
      c.GetCapacity = 10) := by
  constructor
  · by_cases hn : a.capacity_ < n
    · obtain ⟨b, hb, hs, hc, hl, hold, _⟩ := Reserve_slots E a n hsz hv hn
      refine ⟨b, hb, hs, ?_, live_congr a b hs hold, ?_, ?_⟩
      · intro i hi
        exact index_congr a b i (hold i hi)
      · intro _
        exact ⟨hc, hl⟩
      · intro h
        simp only [GetCapacity] at h
        omega
    · refine ⟨a, ?_, rfl, ?_, rfl, ?_, ?_⟩
      · simp [Reserve, hn]
      · intro i _
        rfl
      · intro h
        simp only [GetCapacity] at h
        omega
      · intro _
        rfl
  · obtain ⟨c, hc, hs, hcap, _, _, _⟩ := Reserve_slots E (empty : SimpleVector T) 10
      (le_refl _) (Nat.zero_le _) (by show 0 < 10; omega)
    exact ⟨c, hc, hs, hcap⟩

/-- A run of `Reserve_contract`: a vector of two elements in a block of three
slots. -/
theorem Reserve_contract_witness :
    (2 ≤ 3 ∧ 2 ≤ ([1, 9, 4] : List Nat).length) ∧
    (∃ b, Reserve ⟨0, fun _ => 7⟩ (⟨[1, 9, 4], 2, 3⟩ : SimpleVector Nat) 5 = some b ∧
      b.GetSize = (⟨[1, 9, 4], 2, 3⟩ : SimpleVector Nat).GetSize ∧
      (∀ i, i < (⟨[1, 9, 4], 2, 3⟩ : SimpleVector Nat).GetSize →
        index b i = index (⟨[1, 9, 4], 2, 3⟩ : SimpleVector Nat) i) ∧
      live b = live (⟨[1, 9, 4], 2, 3⟩ : SimpleVector Nat) ∧
      ((⟨[1, 9, 4], 2, 3⟩ : SimpleVector Nat).GetCapacity < 5 →
        b.GetCapacity = 5 ∧ b.vec_.length = 5) ∧
      (5 ≤ (⟨[1, 9, 4], 2, 3⟩ : SimpleVector Nat).GetCapacity →
        b = (⟨[1, 9, 4], 2, 3⟩ : SimpleVector Nat))) ∧
    (∃ c, Reserve ⟨0, fun _ => 7⟩ (empty : SimpleVector Nat) 10 = some c ∧ c.GetSize = 0 ∧
      c.GetCapacity = 10) :=
  ⟨⟨by decide, by decide⟩,
    Reserve_contract ⟨0, fun _ => 7⟩ (⟨[1, 9, 4], 2, 3⟩ : SimpleVector Nat) 5 (by decide)
      (by decide)⟩

/-- C7: on a vector whose live elements lie in its block, `At(i)` for `i`
below the size succeeds with the element that the unchecked `operator[](i)`
gives, `At(i)` for `i` at or above the size throws `std::out_of_range`, and so
`At(i)` fails exactly when `i` is at least the size. -/
theorem At_contract (a : SimpleVector T) (i : Nat) (hv : a.size_ ≤ a.vec_.length) :
    (i < a.GetSize → ∃ x, At a i = Access.ok x ∧ index a i = Access.ok x) ∧
    (a.GetSize ≤ i → At a i = Access.out_of_range) ∧
    ((∀ x, At a i ≠ Access.ok x) ↔ a.GetSize ≤ i) ∧
    (At a i = Access.out_of_range ↔ a.GetSize ≤ i) := by
  have hsome : i < a.size_ → ∃ x, At a i = Access.ok x ∧ index a i = Access.ok x := by
    intro hi
    have hlt : i < a.vec_.length := by omega
    refine ⟨a.vec_.get ⟨i, hlt⟩, ?_, ?_⟩
    · simp only [At, ge_iff_le, if_neg (Nat.not_le.mpr hi), rd_of_lt a.vec_ i hlt]
    · simp only [index, rd_of_lt a.vec_ i hlt]
  have hout : a.size_ ≤ i → At a i = Access.out_of_range := by
    intro hi
    simp only [At, ge_iff_le, if_pos hi]
  refine ⟨hsome, hout, ?_, ?_⟩
  · constructor
    · intro h
      by_contra hc
      obtain ⟨x, hx, _⟩ := hsome (by simp only [GetSize] at hc; omega)
      exact h x hx
    · intro hi x hx
      rw [hout hi] at hx
      cases hx
  · constructor
    · intro h
      by_contra hc
      obtain ⟨x, hx, _⟩ := hsome (by simp only [GetSize] at hc; omega)
      rw [hx] at h
      cases h
    · exact hout

/-- A run of `At_contract`: index 1 of a vector of two elements. -/
theorem At_contract_witness :
    2 ≤ ([4, 6, 8] : List Nat).length ∧
    ((1 < (⟨[4, 6, 8], 2, 3⟩ : SimpleVector Nat).GetSize →
      ∃ x, At (⟨[4, 6, 8], 2, 3⟩ : SimpleVector Nat) 1 = Access.ok x ∧
        index (⟨[4, 6, 8], 2, 3⟩ : SimpleVector Nat) 1 = Access.ok x) ∧
    ((⟨[4, 6, 8], 2, 3⟩ : SimpleVector Nat).GetSize ≤ 1 →
      At (⟨[4, 6, 8], 2, 3⟩ : SimpleVector Nat) 1 = Access.out_of_range) ∧
    ((∀ x, At (⟨[4, 6, 8], 2, 3⟩ : SimpleVector Nat) 1 ≠ Access.ok x) ↔
      (⟨[4, 6, 8], 2, 3⟩ : SimpleVector Nat).GetSize ≤ 1) ∧
    (At (⟨[4, 6, 8], 2, 3⟩ : SimpleVector Nat) 1 = Access.out_of_range ↔
      (⟨[4, 6, 8], 2, 3⟩ : SimpleVector Nat).GetSize ≤ 1)) :=
  ⟨by decide, At_contract (⟨[4, 6, 8], 2, 3⟩ : SimpleVector Nat) 1 (by decide)⟩

/-- C8: `k ≥ 1` calls of `PushBack` on a default-constructed vector all return
and leave size `k` and as capacity the smallest power of two that is at least
`k`, which is `2 ^ clog 2 k`; the elements are the pushed items in order; three
calls give size 3 and capacity 4. -/
theorem pushAll_capacity (E : Elem T) (xs : List T) (hk : 1 ≤ xs.length) :
    (∃ b, pushAll E (empty : SimpleVector T) xs = some b ∧
      b.GetSize = xs.length ∧
      b.GetCapacity = 2 ^ Nat.clog 2 xs.length ∧
      xs.length ≤ b.GetCapacity ∧
      (∀ m, xs.length ≤ 2 ^ m → b.GetCapacity ≤ 2 ^ m) ∧
      live b = xs) ∧
    (∀ x y z : T, ∃ c, pushAll E (empty : SimpleVector T) [x, y, z] = some c ∧
      c.GetSize = 3 ∧ c.GetCapacity = 4) := by
  constructor
  · obtain ⟨b, hb, hs, _, hle, hlive, hinv⟩ :=
      pushAll_doubling E xs (empty : SimpleVector T) rfl (le_refl _) (Or.inl ⟨rfl, rfl⟩)
    have hs1 : b.size_ = xs.length := by
      rw [hs]
      show 0 + xs.length = xs.length
      omega
    rcases hinv with ⟨h0, _⟩ | ⟨m, hm, hlt⟩
    · omega
    · have hcap : b.capacity_ = 2 ^ Nat.clog 2 xs.length := by
        rw [hm]
        exact pow_clog_of_between xs.length m (by omega) (by omega)
      refine ⟨b, hb, hs1, hcap, by simp only [GetCapacity]; omega, ?_, ?_⟩
      · intro j hj
        simp only [GetCapacity]
        rw [hcap]
        exact Nat.pow_le_pow_right (by omega) ((Nat.le_pow_iff_clog_le (by omega)).mp hj)
      · rw [hlive]
        rfl
  · intro x y z
    exact ⟨_, rfl, rfl, rfl⟩

/-- A run of `pushAll_capacity`: five calls. -/
theorem pushAll_capacity_witness :
    1 ≤ ([1, 2, 3, 4, 5] : List Nat).length ∧
    ((∃ b, pushAll ⟨0, fun _ => 7⟩ (empty : SimpleVector Nat) [1, 2, 3, 4, 5] = some b ∧
      b.GetSize = ([1, 2, 3, 4, 5] : List Nat).length ∧
      b.GetCapacity = 2 ^ Nat.clog 2 ([1, 2, 3, 4, 5] : List Nat).length ∧
      ([1, 2, 3, 4, 5] : List Nat).length ≤ b.GetCapacity ∧
      (∀ m, ([1, 2, 3, 4, 5] : List Nat).length ≤ 2 ^ m → b.GetCapacity ≤ 2 ^ m) ∧
      live b = [1, 2, 3, 4, 5]) ∧
    (∀ x y z : Nat, ∃ c, pushAll ⟨0, fun _ => 7⟩ (empty : SimpleVector Nat) [x, y, z] = some c ∧
      c.GetSize = 3 ∧ c.GetCapacity = 4)) :=
  ⟨by decide, pushAll_capacity ⟨0, fun _ => 7⟩ [1, 2, 3, 4, 5] (by decide)⟩

/-- C9: on vectors whose live elements lie in their blocks, `a == b` returns,
and is true exactly when the sizes are equal and `a[i]`, `b[i]` are equal for
every `i` below the size; the answer is the same for any two vectors with the
same live elements, whatever their capacities and their slots at or above the
size. -/
theorem opEq_contract [DecidableEq T] (a b : SimpleVector T)
    (ha : a.size_ ≤ a.vec_.length) (hb : b.size_ ≤ b.vec_.length) :
    ∃ res, opEq a b = some res ∧
      (res = true ↔
        a.GetSize = b.GetSize ∧ ∀ i, i < a.GetSize → index a i = index b i) ∧
      (res = true ↔ live a = live b) ∧
      (∀ a1 b1 : SimpleVector T, a1.size_ ≤ a1.vec_.length → b1.size_ ≤ b1.vec_.length →
        live a1 = live a → live b1 = live b → opEq a1 b1 = some res) ∧
      opNe a b = some (!res) := by
  obtain ⟨res, hres, hiff⟩ := opEq_spec a b ha hb
  have hlive : res = true ↔ live a = live b := by
    rw [hiff, live_eq_iff a b ha hb]
  refine ⟨res, hres, ?_, hlive, ?_, ?_⟩
  · rw [hiff]
    simp only [GetSize, index_eq_iff]
  · intro a1 b1 ha1 hb1 hla hlb
    obtain ⟨res1, hres1, hiff1⟩ := opEq_spec a1 b1 ha1 hb1
    have h1 : res1 = true ↔ res = true := by
      rw [hiff1, ← live_eq_iff a1 b1 ha1 hb1, hla, hlb, hlive]
    have h2 : res1 = res := by
      cases res1 <;> cases res <;> simp at h1 ⊢
    rw [hres1, h2]
  · simp only [opNe, hres, Option.map_some']

/-- A run of `opEq_contract`: equal live elements in blocks of different
capacity and with different dead slots. -/
theorem opEq_contract_witness :
    (2 ≤ ([1, 2, 5] : List Nat).length ∧ 2 ≤ ([1, 2, 8, 9] : List Nat).length) ∧
    ∃ res, opEq (⟨[1, 2, 5], 2, 3⟩ : SimpleVector Nat) ⟨[1, 2, 8, 9], 2, 4⟩ = some res ∧
      (res = true ↔
        (⟨[1, 2, 5], 2, 3⟩ : SimpleVector Nat).GetSize =
          (⟨[1, 2, 8, 9], 2, 4⟩ : SimpleVector Nat).GetSize ∧
        ∀ i, i < (⟨[1, 2, 5], 2, 3⟩ : SimpleVector Nat).GetSize →
          index (⟨[1, 2, 5], 2, 3⟩ : SimpleVector Nat) i =
            index (⟨[1, 2, 8, 9], 2, 4⟩ : SimpleVector Nat) i) ∧
      (res = true ↔ live (⟨[1, 2, 5], 2, 3⟩ : SimpleVector Nat) =
        live (⟨[1, 2, 8, 9], 2, 4⟩ : SimpleVector Nat)) ∧
      (∀ a1 b1 : SimpleVector Nat, a1.size_ ≤ a1.vec_.length → b1.size_ ≤ b1.vec_.length →
        live a1 = live (⟨[1, 2, 5], 2, 3⟩ : SimpleVector Nat) →
        live b1 = live (⟨[1, 2, 8, 9], 2, 4⟩ : SimpleVector Nat) →
        opEq a1 b1 = some res) ∧
      opNe (⟨[1, 2, 5], 2, 3⟩ : SimpleVector Nat) ⟨[1, 2, 8, 9], 2, 4⟩ = some (!res) :=
  ⟨⟨by decide, by decide⟩,
    opEq_contract (⟨[1, 2, 5], 2, 3⟩ : SimpleVector Nat) ⟨[1, 2, 8, 9], 2, 4⟩ (by decide)
      (by decide)⟩

/-- C10: on vectors over a linearly ordered element type whose live elements
lie in their blocks, the six comparisons return; `a < b` is true exactly when
for some `i` the elements below `i` agree and either `i` is the size of `a` and
below the size of `b`, or `i` is below both sizes and `a[i] < b[i]`; `a > b` is
`b < a`; `a <= b` is true exactly when `a < b` or `a == b`; `a >= b` is true
exactly when `a > b` or `a == b`. -/
theorem comparison_contract [LinearOrder T] (a b : SimpleVector T)
    (ha : a.size_ ≤ a.vec_.length) (hb : b.size_ ≤ b.vec_.length) :
    ∃ lt gt le ge eq : Bool,
      opLt a b = some lt ∧ opGt a b = some gt ∧ opLe a b = some le ∧ opGe a b = some ge ∧
      opEq a b = some eq ∧
      (lt = true ↔ ∃ i, (∀ j, j < i → index a j = index b j) ∧
        ((i = a.GetSize ∧ a.GetSize < b.GetSize) ∨
          (i < min a.GetSize b.GetSize ∧
            ∃ x y, index a i = Access.ok x ∧ index b i = Access.ok y ∧ x < y))) ∧
      opLt b a = some gt ∧
      (le = true ↔ lt = true ∨ eq = true) ∧
      (ge = true ↔ gt = true ∨ eq = true) := by
  obtain ⟨lt, hlt, hspec⟩ := lexLoop_spec a.vec_ b.vec_ a.size_ 0 0 b.size_ (by omega) (by omega)
  obtain ⟨x1, gt, hx1, hgt, hsw1⟩ :=
    lexLoop_swap a.vec_ b.vec_ a.size_ 0 0 b.size_ (by omega) (by omega)
  obtain ⟨x2, y2, hx2, hy2, hsw2⟩ :=
    lexLoop_swap b.vec_ a.vec_ b.size_ 0 0 a.size_ (by omega) (by omega)
  obtain ⟨eq, heq, heqiff⟩ := opEq_spec a b ha hb
  have e1 : x1 = lt := Option.some.inj (hx1.symm.trans hlt)
  have e2 : x2 = gt := Option.some.inj (hx2.symm.trans hgt)
  have e3 : y2 = lt := Option.some.inj (hy2.symm.trans hlt)
  rw [e1] at hsw1
  rw [e2, e3] at hsw2
  have heq1 : eq = true ↔ (a.size_ = b.size_ ∧ ∀ m, m < a.size_ → a.vec_[0 + m]? = b.vec_[0 + m]?) := by
    rw [heqiff]
    simp only [Nat.zero_add]
  have heq2 : eq = true ↔ (b.size_ = a.size_ ∧ ∀ m, m < b.size_ → b.vec_[0 + m]? = a.vec_[0 + m]?) := by
    rw [heqiff]
    simp only [Nat.zero_add]
    constructor
    · rintro ⟨h1, h2⟩
      exact ⟨h1.symm, fun m hm => (h2 m (by omega)).symm⟩
    · rintro ⟨h1, h2⟩
      exact ⟨h1.symm, fun m hm => (h2 m (by omega)).symm⟩
  refine ⟨lt, gt, !gt, !lt, eq, hlt, hgt, ?_, ?_, heq, ?_, hgt, ?_, ?_⟩
  · simp only [opLe, opGt, opLt, hgt, Option.map_some']
  · simp only [opGe, opLt, hlt, Option.map_some']
  · rw [hspec]
    simp only [Nat.zero_add, GetSize, index_eq_iff, index_ok_iff]
    constructor
    · rintro ⟨k, hk, h | ⟨h3, h4, h5⟩⟩
      · exact ⟨k, hk, Or.inl h⟩
      · exact ⟨k, hk, Or.inr ⟨by omega, h5⟩⟩
    · rintro ⟨k, hk, h | ⟨h3, h5⟩⟩
      · exact ⟨k, hk, Or.inl h⟩
      · exact ⟨k, hk, Or.inr ⟨by omega, by omega, h5⟩⟩
  · rw [heq1, ← hsw1]
    cases gt <;> simp
  · rw [heq2, ← hsw2]
    cases lt <;> simp

/-- A run of `comparison_contract`: a proper beginning of a longer vector. -/
theorem comparison_contract_witness :
    (2 ≤ ([1, 2] : List Nat).length ∧ 3 ≤ ([1, 2, 0] : List Nat).length) ∧
    ∃ lt gt le ge eq : Bool,
      opLt (⟨[1, 2], 2, 2⟩ : SimpleVector Nat) ⟨[1, 2, 0], 3, 3⟩ = some lt ∧
      opGt (⟨[1, 2], 2, 2⟩ : SimpleVector Nat) ⟨[1, 2, 0], 3, 3⟩ = some gt ∧
      opLe (⟨[1, 2], 2, 2⟩ : SimpleVector Nat) ⟨[1, 2, 0], 3, 3⟩ = some le ∧
      opGe (⟨[1, 2], 2, 2⟩ : SimpleVector Nat) ⟨[1, 2, 0], 3, 3⟩ = some ge ∧
      opEq (⟨[1, 2], 2, 2⟩ : SimpleVector Nat) ⟨[1, 2, 0], 3, 3⟩ = some eq ∧
      (lt = true ↔ ∃ i,
        (∀ j, j < i → index (⟨[1, 2], 2, 2⟩ : SimpleVector Nat) j =
          index (⟨[1, 2, 0], 3, 3⟩ : SimpleVector Nat) j) ∧
        ((i = (⟨[1, 2], 2, 2⟩ : SimpleVector Nat).GetSize ∧
            (⟨[1, 2], 2, 2⟩ : SimpleVector Nat).GetSize <
              (⟨[1, 2, 0], 3, 3⟩ : SimpleVector Nat).GetSize) ∨
          (i < min (⟨[1, 2], 2, 2⟩ : SimpleVector Nat).GetSize
              (⟨[1, 2, 0], 3, 3⟩ : SimpleVector Nat).GetSize ∧
            ∃ x y, index (⟨[1, 2], 2, 2⟩ : SimpleVector Nat) i = Access.ok x ∧
              index (⟨[1, 2, 0], 3, 3⟩ : SimpleVector Nat) i = Access.ok y ∧ x < y))) ∧
      opLt (⟨[1, 2, 0], 3, 3⟩ : SimpleVector Nat) ⟨[1, 2], 2, 2⟩ = some gt ∧
      (le = true ↔ lt = true ∨ eq = true) ∧
      (ge = true ↔ gt = true ∨ eq = true) :=
  ⟨⟨by decide, by decide⟩,
    comparison_contract (⟨[1, 2], 2, 2⟩ : SimpleVector Nat) ⟨[1, 2, 0], 3, 3⟩ (by decide)
      (by decide)⟩

/-- C11: for a vector whose size is at most its capacity and whose live
elements lie in its block, the copy constructor returns a vector with the same
size and capacity, a block of exactly that many slots, the same element at
every index below the size (so the copy compares equal to the source) and
`Type()` in every slot of `[size, capacity)`; the source is an argument that
is only read.  Copy assignment from it leaves any other vector with the size,
capacity and live elements of the source, and self-assignment changes
nothing. -/
theorem copy_contract [DecidableEq T] (E : Elem T) (a : SimpleVector T)
    (hsz : a.size_ ≤ a.capacity_) (hv : a.size_ ≤ a.vec_.length) :
    (∃ b, ctorCopy E a = some b ∧
      b.GetSize = a.GetSize ∧ b.GetCapacity = a.GetCapacity ∧
      b.vec_.length = b.GetCapacity ∧
      (∀ i, i < a.GetSize → index b i = index a i) ∧
      opEq b a = some true ∧
      (∀ i, a.GetSize ≤ i → i < a.GetCapacity → index b i = Access.ok E.dflt)) ∧
    (∀ x : SimpleVector T, ∃ x1, assignCopy E x a false = some x1 ∧
      x1.GetSize = a.GetSize ∧ x1.GetCapacity = a.GetCapacity ∧ live x1 = live a) ∧
    assignCopy E a a true = some a := by
  obtain ⟨b, hb, hs, hc, hl, hold, hnew⟩ := ctorCopy_slots E a hsz hv
  refine ⟨⟨b, hb, hs, hc, ?_, ?_, ?_, ?_⟩, ?_, rfl⟩
  · simp only [GetCapacity, hl, hc]
  · intro i hi
    exact index_congr a b i (hold i hi)
  · obtain ⟨res, hres, hiff⟩ := opEq_spec b a (by omega) hv
    have htrue : res = true := hiff.mpr ⟨hs, fun i hi => hold i (by omega)⟩
    rw [htrue] at hres
    exact hres
  · intro i h1 h2
    exact index_of_getElem? b i E.dflt (hnew i h1 h2)
  · intro x
    refine ⟨b, ?_, hs, hc, live_congr a b hs hold⟩
    simp only [assignCopy, hb, Option.some_bind, swap]
    rfl

/-- A run of `copy_contract`: two live elements in a block of three slots with
capacity four. -/
theorem copy_contract_witness :
    (2 ≤ 4 ∧ 2 ≤ ([1, 2, 9] : List Nat).length) ∧
    ((∃ b, ctorCopy ⟨0, fun _ => 7⟩ (⟨[1, 2, 9], 2, 4⟩ : SimpleVector Nat) = some b ∧
      b.GetSize = (⟨[1, 2, 9], 2, 4⟩ : SimpleVector Nat).GetSize ∧
      b.GetCapacity = (⟨[1, 2, 9], 2, 4⟩ : SimpleVector Nat).GetCapacity ∧
      b.vec_.length = b.GetCapacity ∧
      (∀ i, i < (⟨[1, 2, 9], 2, 4⟩ : SimpleVector Nat).GetSize →
        index b i = index (⟨[1, 2, 9], 2, 4⟩ : SimpleVector Nat) i) ∧
      opEq b (⟨[1, 2, 9], 2, 4⟩ : SimpleVector Nat) = some true ∧
      (∀ i, (⟨[1, 2, 9], 2, 4⟩ : SimpleVector Nat).GetSize ≤ i →
        i < (⟨[1, 2, 9], 2, 4⟩ : SimpleVector Nat).GetCapacity → index b i = Access.ok 0)) ∧
    (∀ x : SimpleVector Nat, ∃ x1,
      assignCopy ⟨0, fun _ => 7⟩ x (⟨[1, 2, 9], 2, 4⟩ : SimpleVector Nat) false = some x1 ∧
      x1.GetSize = (⟨[1, 2, 9], 2, 4⟩ : SimpleVector Nat).GetSize ∧
      x1.GetCapacity = (⟨[1, 2, 9], 2, 4⟩ : SimpleVector Nat).GetCapacity ∧
      live x1 = live (⟨[1, 2, 9], 2, 4⟩ : SimpleVector Nat)) ∧
    assignCopy ⟨0, fun _ => 7⟩ (⟨[1, 2, 9], 2, 4⟩ : SimpleVector Nat)
      (⟨[1, 2, 9], 2, 4⟩ : SimpleVector Nat) true = some ⟨[1, 2, 9], 2, 4⟩) :=
  ⟨⟨by decide, by decide⟩,
    copy_contract ⟨0, fun _ => 7⟩ (⟨[1, 2, 9], 2, 4⟩ : SimpleVector Nat) (by decide)
      (by decide)⟩

/-- C12: move construction from `a` and move assignment from `a` into another
vector `x` both leave the destination with the block, size and capacity `a`
had, hence with its live elements in order, and leave `a` with size 0 and
capacity 0. -/
theorem move_contract (a x : SimpleVector T) :
    ((ctorMove a).1.GetSize = a.GetSize ∧ (ctorMove a).1.GetCapacity = a.GetCapacity ∧
      live (ctorMove a).1 = live a ∧
      (ctorMove a).2.GetSize = 0 ∧ (ctorMove a).2.GetCapacity = 0) ∧
    ((assignMove x a false).1.GetSize = a.GetSize ∧
      (assignMove x a false).1.GetCapacity = a.GetCapacity ∧
      live (assignMove x a false).1 = live a ∧
      (assignMove x a false).2.GetSize = 0 ∧ (assignMove x a false).2.GetCapacity = 0) := by
  refine ⟨⟨rfl, rfl, rfl, rfl, rfl⟩, ⟨rfl, rfl, rfl, rfl, rfl⟩⟩

/-- C13: the constructor from `Reserve(n + 1)` returns a vector of size 0 and
capacity `n + 1` that owns no block at all (0 slots, not `n + 1`), and the
first `PushBack` on it writes `vec_[0]` outside any allocation. -/
theorem ctorReserve_no_block (E : Elem T) (n : Nat) (v : T) :
    ∃ a, ctorReserve E (ReserveProxy (n + 1)) = some a ∧
      a.GetSize = 0 ∧ a.GetCapacity = n + 1 ∧ a.vec_.length = 0 ∧
      wr a.vec_ 0 v = none ∧ PushBack E a v = none := by
  refine ⟨⟨[], 0, n + 1⟩, ?_, rfl, rfl, rfl, rfl, ?_⟩
  · simp [ctorReserve, ReserveProxy, ReserveProxyObj.GetCapacity, std_fill, fillLoop]
  · simp [PushBack, wr]

/-- C14: `SimpleVector(n, v)` returns size and capacity `n` with every element
equal to `v`; `SimpleVector(n)` returns size and capacity `n` with every
element equal to `Type()`; the constructor from an initializer list returns
size and capacity equal to the length of the list, with the items of the list
as elements in order; the default constructor gives size 0 and capacity 0. -/
theorem constructors_contract (E : Elem T) (n : Nat) (v : T) (init : List T) :
    (∃ b, ctorSizeValue E n v = some b ∧ b.GetSize = n ∧ b.GetCapacity = n ∧
      b.vec_.length = n ∧ ∀ i, i < n → index b i = Access.ok v) ∧
    (∃ b, ctorSize E n = some b ∧ b.GetSize = n ∧ b.GetCapacity = n ∧
      b.vec_.length = n ∧ ∀ i, i < n → index b i = Access.ok E.dflt) ∧
    (∃ b, ctorInit E init = some b ∧ b.GetSize = init.length ∧
      b.GetCapacity = init.length ∧ b.vec_.length = init.length ∧
      (∀ i, i < init.length → rd b.vec_ i = rd init i) ∧ live b = init) ∧
    ((empty : SimpleVector T).GetSize = 0 ∧ (empty : SimpleVector T).GetCapacity = 0) := by
  have hinit : ∀ (vec_ : List T) (w : T), vec_.length = n →
      ∃ b, SimpleVectorInit vec_ n w = some b ∧ b.GetSize = n ∧ b.GetCapacity = n ∧
        b.vec_.length = n ∧ ∀ i, i < n → index b i = Access.ok w := by
    intro vec_ w hl
    by_cases hn : n > 0
    · obtain ⟨r, hr, hlen, hget⟩ := std_fill_spec vec_ 0 n w (by omega) (by omega)
      refine ⟨⟨r, n, n⟩, ?_, rfl, rfl, ?_, ?_⟩
      · simp only [SimpleVectorInit, if_pos hn, hr, Option.some_bind]
      · simp only [hlen, hl]
      · intro i hi
        apply index_of_getElem?
        show r[i]? = some w
        rw [hget i, if_pos ⟨by omega, hi⟩]
    · refine ⟨⟨vec_, n, n⟩, ?_, rfl, rfl, hl, ?_⟩
      · simp only [SimpleVectorInit, if_neg hn]
      · intro i hi
        omega
  refine ⟨hinit _ v (create_length E n), hinit _ E.dflt (create_length E n), ?_, rfl, rfl⟩
  by_cases hn : init.length > 0
  · obtain ⟨r, hr, hlen, hget⟩ := std_copy_spec init init.length
      (ArrayPtr.create E init.length) (le_refl _) (by rw [create_length])
    rw [create_length] at hlen
    have hslots : ∀ i, i < init.length → r[i]? = init[i]? := by
      intro i hi
      rw [hget i, if_pos hi]
    refine ⟨⟨r, init.length, init.length⟩, ?_, rfl, rfl, hlen, hslots, ?_⟩
    · simp only [ctorInit, if_pos hn, hr, Option.some_bind]
    · apply List.ext_getElem?
      intro j
      rw [live_getElem?]
      by_cases hj : j < init.length
      · rw [if_pos hj]
        exact hslots j hj
      · rw [if_neg hj, List.getElem?_eq_none (by omega)]
  · have h0 : init.length = 0 := by omega
    have hnil : init = [] := List.length_eq_zero.mp h0
    subst hnil
    refine ⟨⟨ArrayPtr.create E 0, 0, 0⟩, ?_, rfl, rfl, rfl, ?_, rfl⟩
    · rfl
    · intro i hi
      exact absurd hi (Nat.not_lt_zero i)

/-- C15: `size ≤ capacity` holds after every constructor (for the copy and
move constructors, given that it holds for the source), and every mutating
operation (`Clear`, `Resize`, `Reserve`, both `PushBack`, both `Insert`,
`PopBack` on a non-empty vector, `Erase` at a position below the size, `swap`,
copy and move assignment) run on vectors that satisfy it leaves every vector it
returns satisfying it.  On a vector whose block has exactly `capacity_` slots
`Resize`, `Reserve`, `PushBack`, the by-copy `Insert`, the copy constructor and
copy assignment do return, as do `Erase` up to `2 ^ 31` elements and the
by-move `Insert` where its shifting loop stays inside the block. -/
theorem size_le_capacity_invariant (E : Elem T) (a x : SimpleVector T) (n p : Nat) (v : T)
    (init : List T) (obj : ReserveProxyObj) (same : Bool)
    (ha : a.size_ ≤ a.capacity_) (hx : x.size_ ≤ x.capacity_) :
    (((empty : SimpleVector T).GetSize ≤ (empty : SimpleVector T).GetCapacity ∧
      (∃ b, ctorSizeValue E n v = some b ∧ b.GetSize ≤ b.GetCapacity) ∧
      (∃ b, ctorSize E n = some b ∧ b.GetSize ≤ b.GetCapacity) ∧
      (∃ b, ctorInit E init = some b ∧ b.GetSize ≤ b.GetCapacity) ∧
      (∃ b, ctorReserve E obj = some b ∧ b.GetSize ≤ b.GetCapacity) ∧
      (∀ b, ctorCopy E a = some b → b.GetSize ≤ b.GetCapacity) ∧
      (ctorMove a).1.GetSize ≤ (ctorMove a).1.GetCapacity ∧
      (ctorMove a).2.GetSize ≤ (ctorMove a).2.GetCapacity) ∧
    ((Clear a).GetSize ≤ (Clear a).GetCapacity ∧
      (∀ b, Resize E a n = some b → b.GetSize ≤ b.GetCapacity) ∧
      (∀ b, Reserve E a n = some b → b.GetSize ≤ b.GetCapacity) ∧
      (∀ b, PushBack E a v = some b → b.GetSize ≤ b.GetCapacity) ∧
      (∀ b, PushBackMove E a v = some b → b.GetSize ≤ b.GetCapacity) ∧
      (∀ (r : ConstRef T) b q, Insert E a p r = some (b, q) → b.GetSize ≤ b.GetCapacity) ∧
      (∀ b q, InsertMove E a p v = some (b, q) → b.GetSize ≤ b.GetCapacity) ∧
      (0 < a.GetSize → (PopBack a).GetSize ≤ (PopBack a).GetCapacity) ∧
      (p < a.GetSize → ∀ b q, Erase E a p = some (b, q) →
        b.GetSize ≤ b.GetCapacity) ∧
      ((swap a x).1.GetSize ≤ (swap a x).1.GetCapacity ∧
        (swap a x).2.GetSize ≤ (swap a x).2.GetCapacity) ∧
      (∀ b, assignCopy E x a same = some b → b.GetSize ≤ b.GetCapacity) ∧
      ((assignMove x a same).1.GetSize ≤ (assignMove x a same).1.GetCapacity ∧
        (assignMove x a same).2.GetSize ≤ (assignMove x a same).2.GetCapacity)) ∧
    (a.vec_.length = a.capacity_ →
      (∃ b, Resize E a n = some b) ∧
      (∃ b, Reserve E a n = some b) ∧
      (∃ b, PushBack E a v = some b) ∧
      (∃ b, PushBackMove E a v = some b) ∧
      (p ≤ a.size_ → ∀ r : ConstRef T, (∃ y, r.read a.vec_ = some y) →
        ∃ b, Insert E a p r = some (b, p)) ∧
      (p ≤ a.size_ → a.capacity_ + 1 < 2 ^ 31 →
        (a.size_ + 2 ≤ a.capacity_ ∨ (a.size_ = a.capacity_ ∧ 2 ≤ a.capacity_)) →
        ∃ b, InsertMove E a p v = some (b, p)) ∧
      (p < a.size_ → a.size_ ≤ 2 ^ 31 → ∃ b, Erase E a p = some (b, p)) ∧
      (∃ b, ctorCopy E a = some b) ∧
      (∃ b, assignCopy E x a same = some b))) := by
  have hg := grown_pos a.capacity_
  refine ⟨⟨?_, ?_, ?_, ?_, ?_, ?_, ?_, ?_⟩,
    ⟨?_, ?_, ?_, ?_, ?_, ?_, ?_, ?_, ?_, ?_, ?_, ?_⟩, ?_⟩
  · exact le_refl _
  · obtain ⟨b, hb, hs, hc⟩ := SimpleVectorInit_returns (ArrayPtr.create E n) n v
      (create_length E n)
    exact ⟨b, hb, by simp only [GetSize, GetCapacity, hs, hc, le_refl]⟩
  · obtain ⟨b, hb, hs, hc⟩ := SimpleVectorInit_returns (ArrayPtr.create E n) n E.dflt
      (create_length E n)
    exact ⟨b, hb, by simp only [GetSize, GetCapacity, hs, hc, le_refl]⟩
  · obtain ⟨b, hb, hs, hc⟩ := ctorInit_returns E init
    exact ⟨b, hb, by simp only [GetSize, GetCapacity, hs, hc, le_refl]⟩
  · exact ⟨_, ctorReserve_returns E obj, Nat.zero_le _⟩
  · intro b hb
    obtain ⟨hs, hc⟩ := ctorCopy_counters E a b hb
    simp only [GetSize, GetCapacity, hs, hc]
    exact ha
  · exact ha
  · exact le_refl _
  · exact Nat.zero_le _
  · intro b hb
    obtain ⟨hs, hc⟩ := Resize_counters E a b n hb
    simp only [GetSize, GetCapacity]
    rcases hc with ⟨hc, hle⟩ | hc
    · rw [hs, hc]
      omega
    · rw [hs, hc]
  · intro b hb
    obtain ⟨hs, hc⟩ := Reserve_counters E a b n hb
    simp only [GetSize, GetCapacity]
    omega
  · intro b hb
    obtain ⟨hs, hc⟩ := PushBack_counters E a b v hb
    simp only [GetSize, GetCapacity]
    rw [hs, hc]
    split <;> omega
  · intro b hb
    obtain ⟨hs, hc⟩ := PushBackMove_counters E a b v hb
    simp only [GetSize, GetCapacity]
    rw [hs, hc]
    split <;> omega
  · intro r b q hb
    obtain ⟨hs, hc⟩ := Insert_counters E a b p q r hb
    simp only [GetSize, GetCapacity]
    rw [hs, hc]
    split <;> omega
  · intro b q hb
    obtain ⟨hs, hc⟩ := InsertMove_counters E a b p q v hb
    simp only [GetSize, GetCapacity]
    rw [hs, hc]
    split <;> omega
  · intro hpos
    simp only [GetSize] at hpos
    simp only [GetSize, GetCapacity, PopBack, pred_size_t_pos a.size_ hpos]
    omega
  · intro hp b q hb
    simp only [GetSize] at hp
    obtain ⟨hs, hc⟩ := Erase_counters E a b p q hb
    simp only [GetSize, GetCapacity]
    rw [hs, hc, pred_size_t_pos a.size_ (by omega)]
    omega
  · exact ⟨hx, ha⟩
  · intro b hb
    cases same with
    | true =>
      simp only [assignCopy, if_true] at hb
      cases hb
      exact hx
    | false =>
      simp only [assignCopy, Bool.false_eq_true, if_false] at hb
      obtain ⟨c, hc, h1⟩ := Option.bind_eq_some.mp hb
      cases h1
      obtain ⟨hs, hcap⟩ := ctorCopy_counters E a c hc
      simp only [GetSize, GetCapacity, swap, hs, hcap]
      exact ha
  · cases same with
    | true => exact ⟨hx, ha⟩
    | false => exact ⟨ha, Nat.zero_le _⟩
  · intro hlen
    have hcopy : ∃ b, ctorCopy E a = some b := by
      obtain ⟨b, hb, _⟩ := ctorCopy_slots E a ha (by omega)
      exact ⟨b, hb⟩
    refine ⟨?_, ?_, ?_, ?_, ?_, ?_, ?_, hcopy, ?_⟩
    · obtain ⟨b, hb, _⟩ := Resize_slots E a n hlen ha
      exact ⟨b, hb⟩
    · by_cases hn : a.capacity_ < n
      · obtain ⟨b, hb, _⟩ := Reserve_slots E a n ha (by omega) hn
        exact ⟨b, hb⟩
      · exact ⟨a, by simp only [Reserve, if_neg hn]⟩
    · obtain ⟨b, hb, _⟩ := PushBack_slots E a v hlen ha
      exact ⟨b, hb⟩
    · obtain ⟨b, hb, _⟩ := PushBack_slots E a v hlen ha
      exact ⟨b, by rw [PushBackMove_eq E a v ha, hb]⟩
    · intro hp r hread
      exact Insert_any_reference E a p r hlen ha hp hread
    · intro hp hint hroom
      obtain ⟨b, hb, _⟩ := InsertMove_slots E a p v hlen ha hp hroom hint
      exact ⟨b, hb⟩
    · intro hp hint
      obtain ⟨b, hb, _⟩ := Erase_slots E a p (by omega) hp hint
      exact ⟨b, hb⟩
    · obtain ⟨b, hb⟩ := hcopy
      cases same with
      | true => exact ⟨x, rfl⟩
      | false => exact ⟨(swap x b).1, by simp only [assignCopy, Bool.false_eq_true, if_false, hb, Option.some_bind]⟩

/-- A run of `size_le_capacity_invariant`: a vector of two elements with
capacity 4 and a vector of one element. -/
theorem size_le_capacity_invariant_witness :
    (2 ≤ 4 ∧ 1 ≤ 1) ∧
    ((((empty : SimpleVector Nat).GetSize ≤ (empty : SimpleVector Nat).GetCapacity ∧
      (∃ b, ctorSizeValue zeroElem 6 9 = some b ∧ b.GetSize ≤ b.GetCapacity) ∧
      (∃ b, ctorSize zeroElem 6 = some b ∧ b.GetSize ≤ b.GetCapacity) ∧
      (∃ b, ctorInit zeroElem [4, 5] = some b ∧ b.GetSize ≤ b.GetCapacity) ∧
      (∃ b, ctorReserve zeroElem (ReserveProxy 3) = some b ∧ b.GetSize ≤ b.GetCapacity) ∧
      (∀ b, ctorCopy zeroElem (⟨[1, 2, 0, 0], 2, 4⟩ : SimpleVector Nat) = some b → b.GetSize ≤ b.GetCapacity) ∧
      (ctorMove (⟨[1, 2, 0, 0], 2, 4⟩ : SimpleVector Nat)).1.GetSize ≤ (ctorMove (⟨[1, 2, 0, 0], 2, 4⟩ : SimpleVector Nat)).1.GetCapacity ∧
      (ctorMove (⟨[1, 2, 0, 0], 2, 4⟩ : SimpleVector Nat)).2.GetSize ≤ (ctorMove (⟨[1, 2, 0, 0], 2, 4⟩ : SimpleVector Nat)).2.GetCapacity) ∧
    ((Clear (⟨[1, 2, 0, 0], 2, 4⟩ : SimpleVector Nat)).GetSize ≤ (Clear (⟨[1, 2, 0, 0], 2, 4⟩ : SimpleVector Nat)).GetCapacity ∧
      (∀ b, Resize zeroElem (⟨[1, 2, 0, 0], 2, 4⟩ : SimpleVector Nat) 6 = some b → b.GetSize ≤ b.GetCapacity) ∧
      (∀ b, Reserve zeroElem (⟨[1, 2, 0, 0], 2, 4⟩ : SimpleVector Nat) 6 = some b → b.GetSize ≤ b.GetCapacity) ∧
      (∀ b, PushBack zeroElem (⟨[1, 2, 0, 0], 2, 4⟩ : SimpleVector Nat) 9 = some b → b.GetSize ≤ b.GetCapacity) ∧
      (∀ b, PushBackMove zeroElem (⟨[1, 2, 0, 0], 2, 4⟩ : SimpleVector Nat) 9 = some b → b.GetSize ≤ b.GetCapacity) ∧
      (∀ (r : ConstRef Nat) b q,
        Insert zeroElem (⟨[1, 2, 0, 0], 2, 4⟩ : SimpleVector Nat) 1 r = some (b, q) →
        b.GetSize ≤ b.GetCapacity) ∧
      (∀ b q, InsertMove zeroElem (⟨[1, 2, 0, 0], 2, 4⟩ : SimpleVector Nat) 1 9 = some (b, q) → b.GetSize ≤ b.GetCapacity) ∧
      (0 < (⟨[1, 2, 0, 0], 2, 4⟩ : SimpleVector Nat).GetSize → (PopBack (⟨[1, 2, 0, 0], 2, 4⟩ : SimpleVector Nat)).GetSize ≤ (PopBack (⟨[1, 2, 0, 0], 2, 4⟩ : SimpleVector Nat)).GetCapacity) ∧
      (1 < (⟨[1, 2, 0, 0], 2, 4⟩ : SimpleVector Nat).GetSize → ∀ b q, Erase zeroElem (⟨[1, 2, 0, 0], 2, 4⟩ : SimpleVector Nat) 1 = some (b, q) →
        b.GetSize ≤ b.GetCapacity) ∧
      ((swap (⟨[1, 2, 0, 0], 2, 4⟩ : SimpleVector Nat) (⟨[5], 1, 1⟩ : SimpleVector Nat)).1.GetSize ≤ (swap (⟨[1, 2, 0, 0], 2, 4⟩ : SimpleVector Nat) (⟨[5], 1, 1⟩ : SimpleVector Nat)).1.GetCapacity ∧
        (swap (⟨[1, 2, 0, 0], 2, 4⟩ : SimpleVector Nat) (⟨[5], 1, 1⟩ : SimpleVector Nat)).2.GetSize ≤ (swap (⟨[1, 2, 0, 0], 2, 4⟩ : SimpleVector Nat) (⟨[5], 1, 1⟩ : SimpleVector Nat)).2.GetCapacity) ∧
      (∀ b, assignCopy zeroElem (⟨[5], 1, 1⟩ : SimpleVector Nat) (⟨[1, 2, 0, 0], 2, 4⟩ : SimpleVector Nat) false = some b → b.GetSize ≤ b.GetCapacity) ∧
      ((assignMove (⟨[5], 1, 1⟩ : SimpleVector Nat) (⟨[1, 2, 0, 0], 2, 4⟩ : SimpleVector Nat) false).1.GetSize ≤ (assignMove (⟨[5], 1, 1⟩ : SimpleVector Nat) (⟨[1, 2, 0, 0], 2, 4⟩ : SimpleVector Nat) false).1.GetCapacity ∧
        (assignMove (⟨[5], 1, 1⟩ : SimpleVector Nat) (⟨[1, 2, 0, 0], 2, 4⟩ : SimpleVector Nat) false).2.GetSize ≤ (assignMove (⟨[5], 1, 1⟩ : SimpleVector Nat) (⟨[1, 2, 0, 0], 2, 4⟩ : SimpleVector Nat) false).2.GetCapacity)) ∧
    ((⟨[1, 2, 0, 0], 2, 4⟩ : SimpleVector Nat).vec_.length = (⟨[1, 2, 0, 0], 2, 4⟩ : SimpleVector Nat).capacity_ →
      (∃ b, Resize zeroElem (⟨[1, 2, 0, 0], 2, 4⟩ : SimpleVector Nat) 6 = some b) ∧
      (∃ b, Reserve zeroElem (⟨[1, 2, 0, 0], 2, 4⟩ : SimpleVector Nat) 6 = some b) ∧
      (∃ b, PushBack zeroElem (⟨[1, 2, 0, 0], 2, 4⟩ : SimpleVector Nat) 9 = some b) ∧
      (∃ b, PushBackMove zeroElem (⟨[1, 2, 0, 0], 2, 4⟩ : SimpleVector Nat) 9 = some b) ∧
      (1 ≤ (⟨[1, 2, 0, 0], 2, 4⟩ : SimpleVector Nat).size_ → ∀ r : ConstRef Nat,
        (∃ y, r.read (⟨[1, 2, 0, 0], 2, 4⟩ : SimpleVector Nat).vec_ = some y) →
        ∃ b, Insert zeroElem (⟨[1, 2, 0, 0], 2, 4⟩ : SimpleVector Nat) 1 r = some (b, 1)) ∧
      (1 ≤ (⟨[1, 2, 0, 0], 2, 4⟩ : SimpleVector Nat).size_ → (⟨[1, 2, 0, 0], 2, 4⟩ : SimpleVector Nat).capacity_ + 1 < 2 ^ 31 →
        ((⟨[1, 2, 0, 0], 2, 4⟩ : SimpleVector Nat).size_ + 2 ≤ (⟨[1, 2, 0, 0], 2, 4⟩ : SimpleVector Nat).capacity_ ∨ ((⟨[1, 2, 0, 0], 2, 4⟩ : SimpleVector Nat).size_ = (⟨[1, 2, 0, 0], 2, 4⟩ : SimpleVector Nat).capacity_ ∧ 2 ≤ (⟨[1, 2, 0, 0], 2, 4⟩ : SimpleVector Nat).capacity_)) →
        ∃ b, InsertMove zeroElem (⟨[1, 2, 0, 0], 2, 4⟩ : SimpleVector Nat) 1 9 = some (b, 1)) ∧
      (1 < (⟨[1, 2, 0, 0], 2, 4⟩ : SimpleVector Nat).size_ → (⟨[1, 2, 0, 0], 2, 4⟩ : SimpleVector Nat).size_ ≤ 2 ^ 31 → ∃ b, Erase zeroElem (⟨[1, 2, 0, 0], 2, 4⟩ : SimpleVector Nat) 1 = some (b, 1)) ∧
      (∃ b, ctorCopy zeroElem (⟨[1, 2, 0, 0], 2, 4⟩ : SimpleVector Nat) = some b) ∧
      (∃ b, assignCopy zeroElem (⟨[5], 1, 1⟩ : SimpleVector Nat) (⟨[1, 2, 0, 0], 2, 4⟩ : SimpleVector Nat) false = some b)))) :=
  ⟨⟨by decide, by decide⟩,
    size_le_capacity_invariant zeroElem (⟨[1, 2, 0, 0], 2, 4⟩ : SimpleVector Nat) (⟨[5], 1, 1⟩ : SimpleVector Nat) 6 1 9 [4, 5]
      (ReserveProxy 3) false (by decide) (by decide)⟩

/-- C16: `Reserve(4)`, `PushBack(1)`, `PushBack(2)` on the empty vector give a
vector whose block has exactly `capacity_ = 4` slots.  `Erase(begin())` on it
returns a vector with capacity 4 whose block has only 2 slots (the new block is
`ArrayPtr<Type> temp(size_)`), and of the next two `PushBack` calls the second
writes `vec_[2]` outside that block. -/
theorem Erase_shrinks_block :
    ∃ a b, (Reserve zeroElem (empty : SimpleVector Nat) 4).bind
        (fun r => pushAll zeroElem r [1, 2]) = some a ∧
      a.vec_.length = a.GetCapacity ∧ a.GetSize = 2 ∧
      Erase zeroElem a 0 = some (b, 0) ∧
      b.GetSize = 1 ∧ b.GetCapacity = 4 ∧ b.vec_.length = 2 ∧
      (PushBack zeroElem b 7).bind (fun c => PushBack zeroElem c 8) = none := by
  refine ⟨⟨[1, 2, 0, 0], 2, 4⟩, ⟨[2, 0], 1, 4⟩, ?_, ?_, ?_, ?_, ?_, ?_, ?_, ?_⟩ <;> decide

/-- C17: on a vector whose block has exactly `capacity_` slots (size at most
capacity), full or not, the by-copy `Insert(end(), v)` and `PushBack(v)` both
return and give the same vector: same size, same capacity, same live elements
in order; `Insert` returns the old size, which is the index of the new last
element, and that element is `v`. -/
theorem Insert_end_like_PushBack (E : Elem T) (a : SimpleVector T) (v : T)
    (hlen : a.vec_.length = a.capacity_) (hsz : a.size_ ≤ a.capacity_) :
    ∃ b c, Insert E a a.GetSize (ConstRef.outside v) = some (b, a.GetSize) ∧ PushBack E a v = some c ∧
      b.GetSize = c.GetSize ∧ b.GetCapacity = c.GetCapacity ∧ live b = live c ∧
      b = c ∧
      a.GetSize + 1 = b.GetSize ∧ index b a.GetSize = Access.ok v ∧
      (∀ r : ConstRef T, r.read a.vec_ = some v →
        Insert E a a.GetSize r = some (b, a.GetSize)) := by
  obtain ⟨c, hc, hs, _, _, _, hnew⟩ := PushBack_slots E a v hlen hsz
  have hins : Insert E a a.size_ (ConstRef.outside v) = some (c, a.size_) := by
    rw [Insert_at_end E a v hsz, hc]
    rfl
  refine ⟨c, c, hins, hc, rfl, rfl, rfl, rfl, hs.symm, index_of_getElem? c a.size_ v hnew, ?_⟩
  intro r hr
  show Insert E a a.size_ r = some (c, a.size_)
  rw [Insert_at_end_any_reference E a r v hlen hr, hins]

/-- A run of `Insert_end_like_PushBack`: a full vector of two elements. -/
theorem Insert_end_like_PushBack_witness :
    (([1, 2] : List Nat).length = 2 ∧ 2 ≤ 2) ∧
    ∃ b c, Insert ⟨0, fun _ => 7⟩ (⟨[1, 2], 2, 2⟩ : SimpleVector Nat)
        (⟨[1, 2], 2, 2⟩ : SimpleVector Nat).GetSize (ConstRef.outside 3) =
        some (b, (⟨[1, 2], 2, 2⟩ : SimpleVector Nat).GetSize) ∧
      PushBack ⟨0, fun _ => 7⟩ (⟨[1, 2], 2, 2⟩ : SimpleVector Nat) 3 = some c ∧
      b.GetSize = c.GetSize ∧ b.GetCapacity = c.GetCapacity ∧ live b = live c ∧
      b = c ∧
      (⟨[1, 2], 2, 2⟩ : SimpleVector Nat).GetSize + 1 = b.GetSize ∧
      index b (⟨[1, 2], 2, 2⟩ : SimpleVector Nat).GetSize = Access.ok 3 ∧
      (∀ r : ConstRef Nat, r.read (⟨[1, 2], 2, 2⟩ : SimpleVector Nat).vec_ = some 3 →
        Insert ⟨0, fun _ => 7⟩ (⟨[1, 2], 2, 2⟩ : SimpleVector Nat)
          (⟨[1, 2], 2, 2⟩ : SimpleVector Nat).GetSize r =
          some (b, (⟨[1, 2], 2, 2⟩ : SimpleVector Nat).GetSize)) :=
  ⟨⟨rfl, le_refl 2⟩,
    Insert_end_like_PushBack ⟨0, fun _ => 7⟩ (⟨[1, 2], 2, 2⟩ : SimpleVector Nat) 3 rfl
      (le_refl 2)⟩

/-- C18: move assignment of `ArrayPtr` copies the pointer and leaves the source
as it was: after `b = std::move(a)` with `a` owning block 7, both `a` and `b`
own block 7 and `a` is not empty.  The move constructor does empty its source,
`Release` returns the held pointer and leaves the object empty, and
`operator bool` is true exactly for an object that holds a pointer. -/
theorem ArrayPtr_move_assignment_shares_block :
    (ArrayPtr.assignMove ⟨none⟩ ⟨some 7⟩ = (⟨some 7⟩, ⟨some 7⟩) ∧
      (ArrayPtr.assignMove ⟨none⟩ ⟨some 7⟩).1.owns 7 = true ∧
      (ArrayPtr.assignMove ⟨none⟩ ⟨some 7⟩).2.owns 7 = true ∧
      (ArrayPtr.assignMove ⟨none⟩ ⟨some 7⟩).2.toBool = true) ∧
    (∀ d s : ArrayPtr, (ArrayPtr.assignMove d s).1.raw_ptr_ = s.raw_ptr_ ∧
      (ArrayPtr.assignMove d s).2 = s) ∧
    (∀ s : ArrayPtr, (ArrayPtr.ctorMove s).1.raw_ptr_ = s.raw_ptr_ ∧
      (ArrayPtr.ctorMove s).2.raw_ptr_ = none) ∧
    (∀ s : ArrayPtr, (ArrayPtr.Release s).1 = s.Get ∧
      (ArrayPtr.Release s).2.toBool = false) ∧
    (∀ s : ArrayPtr, s.toBool = true ↔ ∃ block, s.raw_ptr_ = some block) := by
  refine ⟨⟨rfl, rfl, rfl, rfl⟩, fun d s => ⟨rfl, rfl⟩, ?_, fun s => ⟨rfl, rfl⟩, ?_⟩
  · intro s
    cases s with
    | mk r =>
      cases r with
      | none => exact ⟨rfl, rfl⟩
      | some block => exact ⟨rfl, rfl⟩
  · intro s
    cases s with
    | mk r =>
      cases r with
      | none =>
        constructor
        · intro h
          cases h
        · rintro ⟨block, h⟩
          cases h
      | some block =>
        constructor
        · intro _
          exact ⟨block, rfl⟩
        · intro _
          rfl

/-- C19: the by-move `Insert` uses indices outside its blocks.  On the empty
vector (capacity 0) the new block has 1 slot and the shifting loop starts by
writing `temp[1]`; on a full vector of capacity 1 the new block has 2 slots
and the loop starts by writing `temp[2]`; on a vector with one free slot
(size 1, capacity 2) the loop starts by writing `vec_[2]`.  The by-copy
`Insert` returns on the same three vectors. -/
theorem InsertMove_leaves_block :
    ((ArrayPtr.create zeroElem (grown 0)).length = 1 ∧ (toInt32 (0 + 1)).toNat = 1 ∧
      InsertMove zeroElem (empty : SimpleVector Nat) 0 5 = none ∧
      Insert zeroElem (empty : SimpleVector Nat) 0 (ConstRef.outside 5) = some (⟨[5], 1, 1⟩, 0)) ∧
    ((ArrayPtr.create zeroElem (grown 1)).length = 2 ∧ (toInt32 (1 + 1)).toNat = 2 ∧
      InsertMove zeroElem (⟨[1], 1, 1⟩ : SimpleVector Nat) 0 5 = none ∧
      Insert zeroElem (⟨[1], 1, 1⟩ : SimpleVector Nat) 0 (ConstRef.outside 5) = some (⟨[5, 1], 2, 2⟩, 0)) ∧
    (([1, 0] : List Nat).length = 2 ∧ (toInt32 (1 + 1)).toNat = 2 ∧
      InsertMove zeroElem (⟨[1, 0], 1, 2⟩ : SimpleVector Nat) 1 5 = none ∧
      Insert zeroElem (⟨[1, 0], 1, 2⟩ : SimpleVector Nat) 1 (ConstRef.outside 5) = some (⟨[1, 5], 2, 2⟩, 1)) := by
  refine ⟨⟨?_, ?_, ?_, ?_⟩, ⟨?_, ?_, ?_, ?_⟩, ⟨?_, ?_, ?_, ?_⟩⟩ <;> decide

/-- C20: after `PushBack` of 1, 2, 3 on the empty vector (size 3, capacity 4)
the by-copy `Insert(begin() + 1, 9)` returns position 1 and the vector
`[1, 9, 2, 3]`, while the by-move `Insert(begin() + 1, 9)` starts its shifting
loop with a write to `vec_[4]`, outside the block of 4 slots, and has no
result. -/
theorem InsertMove_differs_from_Insert :
    pushAll zeroElem (empty : SimpleVector Nat) [1, 2, 3] = some ⟨[1, 2, 3, 0], 3, 4⟩ ∧
    Insert zeroElem (⟨[1, 2, 3, 0], 3, 4⟩ : SimpleVector Nat) 1 (ConstRef.outside 9) =
      some (⟨[1, 9, 2, 3], 4, 4⟩, 1) ∧
    InsertMove zeroElem (⟨[1, 2, 3, 0], 3, 4⟩ : SimpleVector Nat) 1 9 = none := by
  refine ⟨?_, ?_, ?_⟩ <;> decide

end SimpleVector
